import Mathlib

/-!
# LambdaMART pair weighting (`src/loss_func/loss_func_lambdamart.cc`)

A shallow embedding of the rank computation, the discount function, the
discount lookup built by the constructor, and the pair weighting function.

Modelling conventions.

* `uint` / `int` indices are natural numbers: groups are taken to have fewer than
  `2^31` positions, so that the `int` loop counters and the `uint` ranks do not wrap.
* `double` / `float` arithmetic is exact arithmetic in an arbitrary linearly ordered
  field `R`, and the library function `log` is a parameter `log : R → R`; the theorems
  about the logarithmic formula instantiate `R := ℝ`, `log := Real.log`.
  A quotient with divisor zero is no number (the source yields an infinity or NaN) and
  is `none` here. The one rounding the source text itself fixes, the `float` sum
  `base + rank` of `discount`, is modelled by `roundF32` in a second set of definitions
  (`discountF32`, `pairWeightF32`, ...); other rounding is outside this model.
* `std::vector` reads and writes are list operations; a read outside the vector is
  undefined behaviour in the source and is `none` here.
* `std::sort` is not part of the repository: it is a parameter `sort`, constrained
  only by the contract the C++ standard gives it (`StdSortContract`); `gnuSort` follows
  the implementation of GNU libstdc++.
-/

namespace gbdt

/-! ## Definitions -/

/-- The constant `kNumPrecomputedDiscounts` (line 31). -/
def kNumPrecomputedDiscounts : Nat := 100

/-- The function `discount(rank, base)` (lines 33-35): `log(base) / log(base + rank)`.
When the divisor is zero the source yields an infinity or NaN, no number: `none`. -/
def discount {R : Type} [LinearOrderedField R] (log : R → R) (rank : Nat) (base : R) :
    Option R :=
  if log (base + (rank : R)) = 0 then none else some (log base / log (base + (rank : R)))

/-- State of a `std::vector<double>`: `size` is what `size()` returns, `store` is the
allocated storage (one cell per unit of capacity, `none` for a cell that holds no number:
never written, or written with an undefined quotient). -/
structure DVec (R : Type) where
  size : Nat
  store : List (Option R)

/-- A default-constructed (empty, unallocated) vector. -/
def DVec.empty {R : Type} : DVec R := ⟨0, []⟩

/-- The call `v.reserve(n)`: grows the storage to at least `n` cells, leaves `size()` alone. -/
def DVec.reserve {R : Type} (v : DVec R) (n : Nat) : DVec R :=
  { v with store := v.store ++ List.replicate (n - v.store.length) none }

/-- The assignment `v[i] = x` through `operator[]`: writes the cell, leaves `size()` alone. -/
def DVec.assign {R : Type} (v : DVec R) (i : Nat) (x : Option R) : DVec R :=
  { v with store := v.store.set i x }

/-- The read `v[i]` through `operator[]`: the content of cell `i`, `none` when there is none. -/
def DVec.read {R : Type} (v : DVec R) (i : Nat) : Option R :=
  (v.store.getD i none)

/-- The fields of a `LambdaMART` object this file touches. `target_column_` is the target
column the pairwise base class points at; `precomputed_discounts_` and `ranks_` are
default-constructed vector members. -/
structure LambdaMART (R : Type) where
  dcg_base_ : R
  precomputed_discounts_ : DVec R
  ranks_ : List Nat
  target_column_ : List R

/-- The loop of lines 44-46, from index `i` for `k` more iterations:
`precomputed_discounts_[i] = discount(i, dcg_base_)`. -/
def fillDiscounts {R : Type} [LinearOrderedField R] (log : R → R) (base : R) :
    Nat → Nat → DVec R → DVec R
  | 0, _, v => v
  | k + 1, i, v => fillDiscounts log base k (i + 1) (v.assign i (discount log i base))

/-- The constructor `LambdaMART::LambdaMART(config)` (lines 37-51). `defaultBase` is the
in-class initial value of `dcg_base_` (declared in the header), `configBase` is
`config.lambdamart_config().dcg_base()`, `targets` is the target column of the base class.
The table is reserved, not resized: the 100 writes of the loop land in the reserved
storage and `size()` stays 0. -/
def LambdaMART.construct {R : Type} [LinearOrderedField R] (log : R → R)
    (defaultBase configBase : R) (targets : List R) : LambdaMART R :=
  let dcg_base_ := if configBase > 0 then configBase else defaultBase
  let v := (DVec.empty : DVec R).reserve kNumPrecomputedDiscounts
  let v := fillDiscounts log dcg_base_ kNumPrecomputedDiscounts 0 v
  { dcg_base_ := dcg_base_, precomputed_discounts_ := v, ranks_ := [], target_column_ := targets }

/-- The closure `discount_` of lines 48-50, reading the object it captured:
`rank < precomputed_discounts_.size() ? precomputed_discounts_[rank] : discount(rank, dcg_base_)`. -/
def LambdaMART.discount_ {R : Type} [LinearOrderedField R] (log : R → R)
    (self : LambdaMART R) (rank : Nat) : Option R :=
  if rank < self.precomputed_discounts_.size then self.precomputed_discounts_.read rank
  else discount log rank self.dcg_base_

/-- The score `f[group[i]]` of a group position, `none` when a read is out of range. -/
def scoreAt {S : Type} (group : List Nat) (f : List S) (i : Nat) : Option S :=
  match group[i]? with
  | some g => f[g]?
  | none => none

/-- The comparator of line 73: `f[group[i]] > f[group[j]]`. -/
def scoreGreater {S : Type} [LinearOrder S] (group : List Nat) (f : List S) (i j : Nat) : Bool :=
  match scoreAt group f i, scoreAt group f j with
  | some a, some b => decide (a > b)
  | _, _ => false

/-- The loop of lines 77-79 from index `i` on: `ranks[ranking[i]] = i`. -/
def storeRanks : List Nat → Nat → List Nat → List Nat
  | [], _, ranks => ranks
  | p :: rest, i, ranks => storeRanks rest (i + 1) (ranks.set p i)

/-- The function `ComputeRanks(group, f)` (lines 64-82). The comparator reads `f[group[i]]`
for every position as soon as there are two positions to compare, so the call is defined
when the group has at most one element or every group entry indexes `f`. -/
def ComputeRanks {S : Type} [LinearOrder S] (sort : (Nat → Nat → Bool) → List Nat → List Nat)
    (group : List Nat) (f : List S) : Option (List Nat) :=
  if group.length ≤ 1 ∨ ∀ g ∈ group, g < f.length then
    let ranking := List.range group.length
    let ranking := sort (scoreGreater group f) ranking
    some (storeRanks ranking 0 (List.replicate group.length 0))
  else none

/-- The closure returned at lines 89-93, applied to the pair `p` while the object is in
state `self` (the closure captures `this` and `group` by reference). -/
def pairWeight {R : Type} [LinearOrderedField R] (log : R → R) (self : LambdaMART R)
    (group : List Nat) (p : Nat × Nat) : Option R :=
  match group[p.1]?, group[p.2]? with
  | some gi, some gj =>
    match self.target_column_[gi]?, self.target_column_[gj]? with
    | some ti, some tj =>
      match self.ranks_[p.1]?, self.ranks_[p.2]? with
      | some ri, some rj =>
        match self.discount_ log ri, self.discount_ log rj with
        | some di, some dj => some ((ti - tj) * |di - dj|)
        | _, _ => none
      | _, _ => none
    | _, _ => none
  | _, _ => none

/-- The assignment `ranks_ = ranks` (line 86): only the rank state changes. -/
def LambdaMART.setRanks {R : Type} (self : LambdaMART R) (ranks : List Nat) : LambdaMART R :=
  { self with ranks_ := ranks }

/-- The method `LambdaMART::GeneratePairWeightingFunc(group, f)` (lines 84-94): the object
after the call, and the returned closure as a function of the object state it is called in. -/
def LambdaMART.GeneratePairWeightingFunc {R : Type} [LinearOrderedField R]
    (sort : (Nat → Nat → Bool) → List Nat → List Nat) (log : R → R)
    (self : LambdaMART R) (group : List Nat) (f : List R) :
    Option (LambdaMART R × (LambdaMART R → Nat × Nat → Option R)) :=
  match ComputeRanks sort group f with
  | some ranks => some (self.setRanks ranks, fun obj p => pairWeight log obj group p)
  | none => none

/-! ## The contract of `std::sort` -/

/-- The comparator requirement of `std::sort` on the values of the range: `comp` is a
strict weak ordering on the elements of `l`. -/
def StrictWeakOn (comp : Nat → Nat → Bool) (l : List Nat) : Prop :=
  (∀ a ∈ l, comp a a = false) ∧
  (∀ a ∈ l, ∀ b ∈ l, ∀ c ∈ l, comp a b = true → comp b c = true → comp a c = true) ∧
  (∀ a ∈ l, ∀ b ∈ l, ∀ c ∈ l, comp a b = false → comp b a = false →
    comp b c = false → comp c b = false → comp a c = false ∧ comp c a = false)

/-- What the C++ standard promises of `std::sort(first, last, comp)`: the range is
rearranged (a permutation) so that no later element is ordered before an earlier one.
The order of equivalent elements is not promised. -/
structure StdSortContract (sort : (Nat → Nat → Bool) → List Nat → List Nat) : Prop where
  perm : ∀ comp l, StrictWeakOn comp l → (sort comp l).Perm l
  sorted : ∀ comp l, StrictWeakOn comp l →
    (sort comp l).Pairwise (fun a b => comp b a = false)

/-- Insertion of `x` in front of the first element `y` with `before x y`. -/
def insertBefore (before : Nat → Nat → Bool) (x : Nat) : List Nat → List Nat
  | [] => [x]
  | y :: l => if before x y then x :: y :: l else y :: insertBefore before x l

/-- Insertion sort that keeps equivalent elements in their input order. -/
def stableInsertionSort (comp : Nat → Nat → Bool) (l : List Nat) : List Nat :=
  l.foldr (insertBefore (fun x y => !comp y x)) []

/-- Insertion sort that moves an element past its equivalents, so that equivalent
elements come out in reverse input order. -/
def reversingInsertionSort (comp : Nat → Nat → Bool) (l : List Nat) : List Nat :=
  l.foldr (insertBefore (fun x y => comp x y)) []

/-! ## The `float` sum of `discount`

The parameters of `discount` are `uint rank, float base`, so `base + rank` is a `float` sum:
the rank is converted to `float` and the sum is rounded to `float`. The definitions below
repeat the discount, the constructor, the lookup and the weighting function with that
rounding in place; `log` stays a parameter and the quotient stays exact. -/

/-- Rounding of `q` to the nearest integer, a tie going to the even neighbour. -/
def roundNearestEven {R : Type} [LinearOrderedField R] [FloorRing R] (q : R) : ℤ :=
  if q - (⌊q⌋ : R) < 1 / 2 then ⌊q⌋
  else if 1 / 2 < q - (⌊q⌋ : R) then ⌊q⌋ + 1
  else if ⌊q⌋ % 2 = 0 then ⌊q⌋ else ⌊q⌋ + 1

/-- The `float` (binary32) nearest to a positive `x`: 24 significant bits, round to nearest,
ties to even. The exponent is not bounded (no overflow, no subnormal numbers). -/
def roundF32Pos {R : Type} [LinearOrderedField R] [FloorRing R] (x : R) : R :=
  (roundNearestEven (x / (2 : R) ^ (Int.log 2 x - 23)) : R) * (2 : R) ^ (Int.log 2 x - 23)

/-- Conversion of a number to `float`. -/
def roundF32 {R : Type} [LinearOrderedField R] [FloorRing R] (x : R) : R :=
  if 0 < x then roundF32Pos x else if x < 0 then -roundF32Pos (-x) else 0

/-- The function `discount(rank, base)` (lines 33-35) with the `float` sum `base + rank`:
`log(base) / log(float(base + float(rank)))`. -/
def discountF32 {R : Type} [LinearOrderedField R] [FloorRing R] (log : R → R) (rank : Nat)
    (base : R) : Option R :=
  if log (roundF32 (base + roundF32 (rank : R))) = 0 then none
  else some (log base / log (roundF32 (base + roundF32 (rank : R))))

/-- The element `a[i]` of a range held in a list (0 outside it). -/
def elemAt (a : List Nat) (i : Nat) : Nat := a.getD i 0

/-- The call `std::iter_swap(a + i, a + j)`. -/
def iterSwap (a : List Nat) (i j : Nat) : List Nat :=
  (a.set i (elemAt a j)).set j (elemAt a i)

/-- The function `std::__lg(n)` for `n ≥ 1`: the floor of the binary logarithm. -/
def lgFloor : Nat → Nat → Nat
  | 0, _ => 0
  | fuel + 1, n => if n ≤ 1 then 0 else 1 + lgFloor fuel (n / 2)

/-- The function `std::__move_median_to_first(result, a, b, c, comp)` on indices. -/
def moveMedianToFirst (comp : Nat → Nat → Bool) (l : List Nat) (result a b c : Nat) : List Nat :=
  if comp (elemAt l a) (elemAt l b) then
    if comp (elemAt l b) (elemAt l c) then iterSwap l result b
    else if comp (elemAt l a) (elemAt l c) then iterSwap l result c
    else iterSwap l result a
  else if comp (elemAt l a) (elemAt l c) then iterSwap l result a
  else if comp (elemAt l b) (elemAt l c) then iterSwap l result c
  else iterSwap l result b

/-- The loop `while (comp(first, pivot)) ++first;` of `std::__unguarded_partition`. -/
def scanUp (comp : Nat → Nat → Bool) (l : List Nat) (pivot : Nat) : Nat → Nat → Nat
  | 0, first => first
  | fuel + 1, first =>
    if comp (elemAt l first) (elemAt l pivot) then scanUp comp l pivot fuel (first + 1) else first

/-- The loop `while (comp(pivot, last)) --last;` of `std::__unguarded_partition`. -/
def scanDown (comp : Nat → Nat → Bool) (l : List Nat) (pivot : Nat) : Nat → Nat → Nat
  | 0, last => last
  | fuel + 1, last =>
    if comp (elemAt l pivot) (elemAt l last) then scanDown comp l pivot fuel (last - 1) else last

/-- The function `std::__unguarded_partition(first, last, pivot, comp)`: the rearranged range
and the cut. -/
def unguardedPartition (comp : Nat → Nat → Bool) (pivot : Nat) :
    Nat → List Nat → Nat → Nat → List Nat × Nat
  | 0, l, first, _ => (l, first)
  | fuel + 1, l, first, last =>
    let first := scanUp comp l pivot l.length first
    let last := scanDown comp l pivot l.length (last - 1)
    if first < last then unguardedPartition comp pivot fuel (iterSwap l first last) (first + 1) last
    else (l, first)

/-- The function `std::__unguarded_partition_pivot(first, last, comp)`. -/
def unguardedPartitionPivot (comp : Nat → Nat → Bool) (l : List Nat) (first last : Nat) :
    List Nat × Nat :=
  let mid := first + (last - first) / 2
  let l := moveMedianToFirst comp l first (first + 1) mid (last - 1)
  unguardedPartition comp first l.length l (first + 1) last

/-- The loop of `std::__push_heap(first, holeIndex, topIndex, value, comp)`; indices are
relative to `first`. The final hole index is returned. -/
def pushHeapHole (comp : Nat → Nat → Bool) (first topIndex value : Nat) :
    Nat → List Nat → Nat → List Nat × Nat
  | 0, l, hole => (l, hole)
  | fuel + 1, l, hole =>
    let parent := (hole - 1) / 2
    if hole > topIndex ∧ comp (elemAt l (first + parent)) value then
      pushHeapHole comp first topIndex value fuel (l.set (first + hole) (elemAt l (first + parent)))
        parent
    else (l, hole)

/-- The function `std::__push_heap`. -/
def pushHeap (comp : Nat → Nat → Bool) (l : List Nat) (first hole topIndex value : Nat) :
    List Nat :=
  let r := pushHeapHole comp first topIndex value l.length l hole
  r.1.set (first + r.2) value

/-- The first loop of `std::__adjust_heap`: the hole moves down to the larger child. -/
def siftDown (comp : Nat → Nat → Bool) (first len : Nat) :
    Nat → List Nat → Nat → Nat → List Nat × Nat × Nat
  | 0, l, hole, secondChild => (l, hole, secondChild)
  | fuel + 1, l, hole, secondChild =>
    if secondChild < (len - 1) / 2 then
      let sc := 2 * (secondChild + 1)
      let sc := if comp (elemAt l (first + sc)) (elemAt l (first + (sc - 1))) then sc - 1 else sc
      siftDown comp first len fuel (l.set (first + hole) (elemAt l (first + sc))) sc sc
    else (l, hole, secondChild)

/-- The function `std::__adjust_heap(first, holeIndex, len, value, comp)`. -/
def adjustHeap (comp : Nat → Nat → Bool) (l : List Nat) (first holeIndex len value : Nat) :
    List Nat :=
  let r := siftDown comp first len l.length l holeIndex holeIndex
  let l := r.1
  let hole := r.2.1
  let secondChild := r.2.2
  if len % 2 = 0 ∧ secondChild = (len - 2) / 2 then
    let sc := 2 * (secondChild + 1)
    let l := l.set (first + hole) (elemAt l (first + (sc - 1)))
    pushHeap comp l first (sc - 1) holeIndex value
  else pushHeap comp l first hole holeIndex value

/-- The loop of `std::__make_heap`, from `parent` down to 0. -/
def makeHeapLoop (comp : Nat → Nat → Bool) (first len : Nat) : Nat → List Nat → Nat → List Nat
  | 0, l, _ => l
  | fuel + 1, l, parent =>
    let l := adjustHeap comp l first parent len (elemAt l (first + parent))
    if parent = 0 then l else makeHeapLoop comp first len fuel l (parent - 1)

/-- The function `std::__make_heap(first, last, comp)`. -/
def makeHeap (comp : Nat → Nat → Bool) (l : List Nat) (first last : Nat) : List Nat :=
  if last - first < 2 then l
  else makeHeapLoop comp first (last - first) (last - first) l ((last - first - 2) / 2)

/-- The function `std::__pop_heap(first, last, result, comp)`. -/
def popHeap (comp : Nat → Nat → Bool) (l : List Nat) (first last result : Nat) : List Nat :=
  let value := elemAt l result
  let l := l.set result (elemAt l first)
  adjustHeap comp l first 0 (last - first) value

/-- The function `std::__sort_heap(first, last, comp)`. -/
def sortHeap (comp : Nat → Nat → Bool) (first : Nat) : Nat → List Nat → Nat → List Nat
  | 0, l, _ => l
  | fuel + 1, l, last =>
    if last - first > 1 then sortHeap comp first fuel (popHeap comp l first (last - 1) (last - 1))
      (last - 1)
    else l

/-- The call `std::__partial_sort(first, last, last, comp)`: heap sort of the range. -/
def heapSortRange (comp : Nat → Nat → Bool) (l : List Nat) (first last : Nat) : List Nat :=
  sortHeap comp first (last - first) (makeHeap comp l first last) last

/-- The function `std::__introsort_loop(first, last, depth_limit, comp)`. -/
def introsortLoop (comp : Nat → Nat → Bool) : Nat → List Nat → Nat → Nat → Nat → List Nat
  | 0, l, _, _, _ => l
  | fuel + 1, l, first, last, depth =>
    if last - first > 16 then
      if depth = 0 then heapSortRange comp l first last
      else
        let r := unguardedPartitionPivot comp l first last
        let l := introsortLoop comp fuel r.1 r.2 last (depth - 1)
        introsortLoop comp fuel l first r.2 (depth - 1)
    else l

/-- The function `std::__unguarded_linear_insert(last, comp)` with the value `val` held
aside: the loop moves larger elements up; the final position of the hole is returned. -/
def linearInsertHole (comp : Nat → Nat → Bool) (val : Nat) : Nat → List Nat → Nat → List Nat × Nat
  | 0, l, last => (l, last)
  | fuel + 1, l, last =>
    if last ≠ 0 ∧ comp val (elemAt l (last - 1)) then
      linearInsertHole comp val fuel (l.set last (elemAt l (last - 1))) (last - 1)
    else (l, last)

/-- The function `std::__unguarded_linear_insert(last, comp)`. -/
def unguardedLinearInsert (comp : Nat → Nat → Bool) (l : List Nat) (last : Nat) : List Nat :=
  let val := elemAt l last
  let r := linearInsertHole comp val l.length l last
  r.1.set r.2 val

/-- The call `std::move_backward(first, i, i + 1)` followed by `*first = val`. -/
def moveToFront (l : List Nat) (first i : Nat) : List Nat :=
  l.take first ++ [elemAt l i] ++ (l.drop first).take (i - first) ++ l.drop (i + 1)

/-- The loop of `std::__insertion_sort(first, last, comp)` from index `i` on. -/
def insertionSortLoop (comp : Nat → Nat → Bool) (first last : Nat) :
    Nat → List Nat → Nat → List Nat
  | 0, l, _ => l
  | fuel + 1, l, i =>
    if i < last then
      let l := if comp (elemAt l i) (elemAt l first) then moveToFront l first i
        else unguardedLinearInsert comp l i
      insertionSortLoop comp first last fuel l (i + 1)
    else l

/-- The function `std::__insertion_sort(first, last, comp)`. -/
def insertionSortRange (comp : Nat → Nat → Bool) (l : List Nat) (first last : Nat) : List Nat :=
  if first = last then l else insertionSortLoop comp first last (last - first) l (first + 1)

/-- The function `std::__unguarded_insertion_sort(first, last, comp)`. -/
def unguardedInsertionSort (comp : Nat → Nat → Bool) (last : Nat) : Nat → List Nat → Nat → List Nat
  | 0, l, _ => l
  | fuel + 1, l, i =>
    if i < last then unguardedInsertionSort comp last fuel (unguardedLinearInsert comp l i) (i + 1)
    else l

/-- The function `std::__final_insertion_sort(first, last, comp)`. -/
def finalInsertionSort (comp : Nat → Nat → Bool) (l : List Nat) (first last : Nat) : List Nat :=
  if last - first > 16 then
    unguardedInsertionSort comp last (last - first)
      (insertionSortRange comp l first (first + 16)) (first + 16)
  else insertionSortRange comp l first last

/-- The function `std::sort(first, last, comp)` as GNU libstdc++ implements it (introsort
followed by a final insertion sort, `bits/stl_algo.h`), applied to the whole range. -/
def gnuSort (comp : Nat → Nat → Bool) (l : List Nat) : List Nat :=
  if l.length = 0 then l
  else
    finalInsertionSort comp
      (introsortLoop comp l.length l 0 l.length (2 * lgFloor l.length l.length)) 0 l.length

/-! ## Lemmas on the sort contract -/

theorem insertBefore_perm (before : Nat → Nat → Bool) (x : Nat) (l : List Nat) :
    (insertBefore before x l).Perm (x :: l) := by
  induction l with
  | nil => simp [insertBefore]
  | cons y l ih =>
    unfold insertBefore
    split
    · exact List.Perm.refl _
    · exact (List.Perm.cons y ih).trans (List.Perm.swap x y l)

theorem foldr_insertBefore_perm (before : Nat → Nat → Bool) (l : List Nat) :
    (l.foldr (insertBefore before) []).Perm l := by
  induction l with
  | nil => simp
  | cons x l ih =>
    simp only [List.foldr_cons]
    exact (insertBefore_perm before x _).trans (List.Perm.cons x ih)

/-- In a strict weak ordering "not after" is transitive. -/
theorem StrictWeakOn.notAfter_trans {comp : Nat → Nat → Bool} {l : List Nat}
    (h : StrictWeakOn comp l) {a b c : Nat} (ha : a ∈ l) (hb : b ∈ l) (hc : c ∈ l)
    (hab : comp b a = false) (hbc : comp c b = false) : comp c a = false := by
  obtain ⟨_, htr, heq⟩ := h
  by_contra hca
  have hca : comp c a = true := by simpa using hca
  cases hbc2 : comp b c with
  | true => have := htr b hb c hc a ha hbc2 hca; simp [this] at hab
  | false =>
    cases hab2 : comp a b with
    | true => have := htr c hc a ha b hb hca hab2; simp [this] at hbc
    | false =>
      have := (heq a ha b hb c hc hab2 hab hbc2 hbc).2
      simp [this] at hca

theorem StrictWeakOn.asymm {comp : Nat → Nat → Bool} {l : List Nat}
    (h : StrictWeakOn comp l) {a b : Nat} (ha : a ∈ l) (hb : b ∈ l)
    (hab : comp a b = true) : comp b a = false := by
  obtain ⟨hirr, htr, _⟩ := h
  by_contra hba
  have hba : comp b a = true := by simpa using hba
  have := htr a ha b hb a ha hab hba
  simp [hirr a ha] at this

theorem insertBefore_pairwise (comp before : Nat → Nat → Bool) (L : List Nat)
    (hsw : StrictWeakOn comp L)
    (h1 : ∀ a ∈ L, ∀ b ∈ L, before a b = true → comp b a = false)
    (h2 : ∀ a ∈ L, ∀ b ∈ L, before a b = false → comp a b = false)
    (x : Nat) (hx : x ∈ L) (l : List Nat) (hl : ∀ a ∈ l, a ∈ L)
    (hp : l.Pairwise (fun a b => comp b a = false)) :
    (insertBefore before x l).Pairwise (fun a b => comp b a = false) := by
  induction l with
  | nil => simp [insertBefore]
  | cons y l ih =>
    have hy : y ∈ L := hl y (List.mem_cons_self _ _)
    have hl2 : ∀ a ∈ l, a ∈ L := fun a ha => hl a (List.mem_cons_of_mem _ ha)
    rw [List.pairwise_cons] at hp
    unfold insertBefore
    split
    · rename_i hb
      rw [List.pairwise_cons]
      refine ⟨?_, List.pairwise_cons.mpr hp⟩
      intro z hz
      rcases List.mem_cons.mp hz with rfl | hz
      · exact h1 x hx z hy hb
      · exact hsw.notAfter_trans hx hy (hl2 z hz) (h1 x hx y hy hb) (hp.1 z hz)
    · rename_i hb
      have hb : before x y = false := by simpa using hb
      rw [List.pairwise_cons]
      refine ⟨?_, ih hl2 hp.2⟩
      intro z hz
      rcases List.mem_cons.mp ((insertBefore_perm before x l).mem_iff.mp hz) with rfl | hz
      · exact h2 z hx y hy hb
      · exact hp.1 z hz

theorem foldr_insertBefore_pairwise (comp before : Nat → Nat → Bool) (L : List Nat)
    (hsw : StrictWeakOn comp L)
    (h1 : ∀ a ∈ L, ∀ b ∈ L, before a b = true → comp b a = false)
    (h2 : ∀ a ∈ L, ∀ b ∈ L, before a b = false → comp a b = false)
    (l : List Nat) (hl : ∀ a ∈ l, a ∈ L) :
    (l.foldr (insertBefore before) []).Pairwise (fun a b => comp b a = false) := by
  induction l with
  | nil => simp
  | cons x l ih =>
    simp only [List.foldr_cons]
    have hl2 : ∀ a ∈ l, a ∈ L := fun a ha => hl a (List.mem_cons_of_mem _ ha)
    refine insertBefore_pairwise comp before L hsw h1 h2 x (hl x (List.mem_cons_self _ _)) _ ?_
      (ih hl2)
    intro a ha
    exact hl2 a ((foldr_insertBefore_perm before l).mem_iff.mp ha)

/-- The stable insertion sort meets the contract of `std::sort`. -/
theorem stableInsertionSort_contract : StdSortContract stableInsertionSort where
  perm := fun _ l _ => foldr_insertBefore_perm _ l
  sorted := fun comp l h => by
    refine foldr_insertBefore_pairwise comp _ l h ?_ ?_ l (fun _ ha => ha)
    · intro a _ b _ hb
      simpa using hb
    · intro a ha b hb hab
      have : comp b a = true := by simpa using hab
      exact h.asymm hb ha this

/-- The tie-reversing insertion sort meets the contract of `std::sort` as well. -/
theorem reversingInsertionSort_contract : StdSortContract reversingInsertionSort where
  perm := fun _ l _ => foldr_insertBefore_perm _ l
  sorted := fun comp l h => by
    refine foldr_insertBefore_pairwise comp _ l h ?_ ?_ l (fun _ ha => ha)
    · intro a ha b hb hab
      exact h.asymm ha hb hab
    · intro a _ b _ hb
      exact hb

/-! ## Lemmas on `ComputeRanks` -/

theorem storeRanks_length (σ : List Nat) (s : Nat) (r : List Nat) :
    (storeRanks σ s r).length = r.length := by
  induction σ generalizing s r with
  | nil => rfl
  | cons p rest ih => simp [storeRanks, ih]

theorem storeRanks_getElem? (σ : List Nat) (hnd : σ.Nodup) (s : Nat) (r : List Nat)
    (hσ : ∀ p ∈ σ, p < r.length) (i : Nat) :
    (storeRanks σ s r)[i]? = if i ∈ σ then some (s + σ.indexOf i) else r[i]? := by
  induction σ generalizing s r with
  | nil => simp [storeRanks]
  | cons p rest ih =>
    rw [List.nodup_cons] at hnd
    have hp : p < r.length := hσ p (List.mem_cons_self _ _)
    have hrest : ∀ q ∈ rest, q < (r.set p s).length := by
      intro q hq
      simpa using hσ q (List.mem_cons_of_mem _ hq)
    rw [storeRanks, ih hnd.2 (s + 1) (r.set p s) hrest]
    by_cases hip : i = p
    · subst hip
      simp [hnd.1, hp]
    · by_cases hir : i ∈ rest
      · have hne : p ≠ i := fun h => hip h.symm
        simp [hir, List.indexOf_cons_ne _ hne]
        omega
      · have hne : p ≠ i := fun h => hip h.symm
        simp [hir, hip, List.getElem?_set_ne hne]

theorem scoreAt_isSome {S : Type} (group : List Nat) (f : List S)
    (hf : ∀ g ∈ group, g < f.length) (i : Nat) (hi : i < group.length) :
    ∃ a, scoreAt group f i = some a := by
  have hg : group[i] ∈ group := List.getElem_mem hi
  have := hf _ hg
  refine ⟨f[group[i]], ?_⟩
  simp [scoreAt, List.getElem?_eq_getElem hi, List.getElem?_eq_getElem this]

theorem scoreGreater_irrefl {S : Type} [LinearOrder S] (group : List Nat) (f : List S)
    (a : Nat) : scoreGreater group f a a = false := by
  unfold scoreGreater
  split <;> simp_all

/-- The comparator of line 73 is a strict weak ordering on the positions of a group on
which `ComputeRanks` is defined. -/
theorem scoreGreater_strictWeakOn {S : Type} [LinearOrder S] (group : List Nat) (f : List S)
    (hdef : group.length ≤ 1 ∨ ∀ g ∈ group, g < f.length) :
    StrictWeakOn (scoreGreater group f) (List.range group.length) := by
  rcases hdef with h1 | hf
  · have h0 : ∀ a ∈ List.range group.length, a = 0 := by
      intro a ha
      have := List.mem_range.mp ha
      omega
    refine ⟨fun a _ => scoreGreater_irrefl group f a, ?_, ?_⟩
    · intro a ha b hb c _ hab _
      rw [h0 a ha, h0 b hb, scoreGreater_irrefl] at hab
      simp at hab
    · intro a ha b _ c hc _ _ _ _
      rw [h0 a ha, h0 c hc, scoreGreater_irrefl]
      simp
  · refine ⟨fun a _ => scoreGreater_irrefl group f a, ?_, ?_⟩
    · intro a ha b hb c hc
      obtain ⟨x, hx⟩ := scoreAt_isSome group f hf a (List.mem_range.mp ha)
      obtain ⟨y, hy⟩ := scoreAt_isSome group f hf b (List.mem_range.mp hb)
      obtain ⟨z, hz⟩ := scoreAt_isSome group f hf c (List.mem_range.mp hc)
      simp only [scoreGreater, hx, hy, hz, decide_eq_true_eq]
      intro h1 h2
      exact lt_trans h2 h1
    · intro a ha b hb c hc
      obtain ⟨x, hx⟩ := scoreAt_isSome group f hf a (List.mem_range.mp ha)
      obtain ⟨y, hy⟩ := scoreAt_isSome group f hf b (List.mem_range.mp hb)
      obtain ⟨z, hz⟩ := scoreAt_isSome group f hf c (List.mem_range.mp hc)
      simp only [scoreGreater, hx, hy, hz, decide_eq_false_iff_not, gt_iff_lt, not_lt]
      intro h1 h2 h3 h4
      exact ⟨le_trans h1 h3, le_trans h4 h2⟩

/-- What `ComputeRanks` returns under the contract of `std::sort`: it is defined, and the
rank of position `i` is the place of `i` in the sorted ranking. -/
theorem ComputeRanks_spec {S : Type} [LinearOrder S]
    (sort : (Nat → Nat → Bool) → List Nat → List Nat) (hs : StdSortContract sort)
    (group : List Nat) (f : List S)
    (hdef : group.length ≤ 1 ∨ ∀ g ∈ group, g < f.length) :
    ∃ ranks σ : List Nat, ComputeRanks sort group f = some ranks ∧
      σ.Perm (List.range group.length) ∧
      σ.Pairwise (fun a b => scoreGreater group f b a = false) ∧
      ranks.length = group.length ∧
      ∀ i, i < group.length → ranks[i]? = some (σ.indexOf i) := by
  have hsw := scoreGreater_strictWeakOn group f hdef
  have hperm := hs.perm _ _ hsw
  have hsorted := hs.sorted _ _ hsw
  refine ⟨storeRanks (sort (scoreGreater group f) (List.range group.length)) 0
      (List.replicate group.length 0),
    sort (scoreGreater group f) (List.range group.length), ?_, hperm, hsorted, ?_, ?_⟩
  · simp only [ComputeRanks, if_pos hdef]
  · simp [storeRanks_length]
  · intro i hi
    have hnd : (sort (scoreGreater group f) (List.range group.length)).Nodup :=
      hperm.nodup_iff.mpr (List.nodup_range _)
    have hmem : i ∈ sort (scoreGreater group f) (List.range group.length) :=
      hperm.mem_iff.mpr (List.mem_range.mpr hi)
    rw [storeRanks_getElem? _ hnd]
    · simp [hmem]
    · intro p hp
      simpa using List.mem_range.mp (hperm.mem_iff.mp hp)

theorem scoreAt_lt_length {S : Type} (group : List Nat) (f : List S) (i : Nat) (a : S)
    (h : scoreAt group f i = some a) : i < group.length := by
  by_contra hi
  have : group[i]? = none := List.getElem?_eq_none (by omega)
  simp [scoreAt, this] at h

theorem scoreGreater_of_scoreAt {S : Type} [LinearOrder S] (group : List Nat) (f : List S)
    (i j : Nat) (a b : S) (hi : scoreAt group f i = some a) (hj : scoreAt group f j = some b) :
    scoreGreater group f i j = decide (a > b) := by
  simp [scoreGreater, hi, hj]

/-- In a duplicate-free list that satisfies `Pairwise r`, an element at a smaller index
is related to one at a larger index. -/
theorem pairwise_of_indexOf_lt {r : Nat → Nat → Prop} {σ : List Nat}
    (hp : σ.Pairwise r) {a b : Nat} (ha : a ∈ σ) (hb : b ∈ σ)
    (h : σ.indexOf a < σ.indexOf b) : r a b := by
  have hia : σ.indexOf a < σ.length := List.indexOf_lt_length.mpr ha
  have hib : σ.indexOf b < σ.length := List.indexOf_lt_length.mpr hb
  have := List.pairwise_iff_getElem.mp hp _ _ hia hib h
  simpa [List.getElem_indexOf] using this

/-- A position whose score is greater sits earlier in the sorted ranking. -/
theorem indexOf_lt_of_scoreGreater {S : Type} [LinearOrder S] (group : List Nat) (f : List S)
    (σ : List Nat) (hp : σ.Pairwise (fun a b => scoreGreater group f b a = false))
    (i j : Nat) (hi : i ∈ σ) (hj : j ∈ σ) (h : scoreGreater group f i j = true) :
    σ.indexOf i < σ.indexOf j := by
  by_contra hlt
  have hle : σ.indexOf j ≤ σ.indexOf i := by omega
  rcases Nat.lt_or_eq_of_le hle with hlt2 | heq
  · have := pairwise_of_indexOf_lt hp hj hi hlt2
    simp [h] at this
  · have hij : j = i := (List.indexOf_inj hj hi).mp heq
    subst hij
    simp [scoreGreater_irrefl] at h

/-- The place of `i` in a sorted ranking counts the positions ordered before it, when
distinct positions are never equivalent. -/
theorem countP_eq_indexOf (comp : Nat → Nat → Bool) (σ : List Nat) (hnd : σ.Nodup)
    (hp : σ.Pairwise (fun a b => comp b a = false))
    (hirr : ∀ a, comp a a = false)
    (htot : ∀ a ∈ σ, ∀ b ∈ σ, a ≠ b → comp a b = true ∨ comp b a = true)
    (i : Nat) (hi : i ∈ σ) : σ.countP (fun j => comp j i) = σ.indexOf i := by
  induction σ with
  | nil => simp at hi
  | cons x rest ih =>
    rw [List.nodup_cons] at hnd
    rw [List.pairwise_cons] at hp
    by_cases hx : x = i
    · subst hx
      rw [List.indexOf_cons_self, List.countP_cons]
      have hz : List.countP (fun j => comp j x) rest = 0 := by
        rw [List.countP_eq_zero]
        intro b hb
        simp [hp.1 b hb]
      simp [hz, hirr]
    · have hir : i ∈ rest := by
        rcases List.mem_cons.mp hi with h | h
        · exact absurd h.symm hx
        · exact h
      have hxi : comp x i = true := by
        rcases htot x (List.mem_cons_self _ _) i hi hx with h | h
        · exact h
        · simp [hp.1 i hir] at h
      rw [List.indexOf_cons_ne _ hx, List.countP_cons,
        ih hnd.2 hp.2 (fun a ha b hb => htot a (List.mem_cons_of_mem _ ha) b
          (List.mem_cons_of_mem _ hb)) hir]
      simp [hxi]

/-- The rank list is the list of places in the sorted ranking. -/
theorem ranks_eq_map_indexOf (ranks σ : List Nat) (n : Nat) (hlen : ranks.length = n)
    (h : ∀ i, i < n → ranks[i]? = some (σ.indexOf i)) :
    ranks = (List.range n).map (fun i => σ.indexOf i) := by
  apply List.ext_getElem?
  intro i
  by_cases hi : i < n
  · rw [h i hi]
    simp [List.getElem?_range hi, hi]
  · rw [List.getElem?_eq_none (by omega), List.getElem?_eq_none (by simp; omega)]

theorem map_indexOf_perm_range (σ : List Nat) (n : Nat) (hperm : σ.Perm (List.range n)) :
    ((List.range n).map (fun i => σ.indexOf i)).Perm (List.range n) := by
  have hnd : σ.Nodup := hperm.nodup_iff.mpr (List.nodup_range n)
  have hlen : σ.length = n := by simpa using hperm.length_eq
  have h1 : ((List.range n).map (fun i => σ.indexOf i)).Perm (σ.map (fun i => σ.indexOf i)) :=
    (hperm.map _).symm
  have h2 : σ.map (fun i => σ.indexOf i) = List.range n := by
    apply List.ext_getElem
    · simp [hlen]
    · intro k hk1 hk2
      simp [List.indexOf_getElem hnd]
  rw [h2] at h1
  exact h1

/-! ## Rank computation -/

/-- C2: for every group of size `n` and every score vector covering its indices,
`ComputeRanks` returns a vector of length `n` that is a permutation of `0 .. n-1`: every
value is below `n` and no two positions share a rank. -/
theorem ComputeRanks_permutation {S : Type} [LinearOrder S]
    (sort : (Nat → Nat → Bool) → List Nat → List Nat) (hs : StdSortContract sort)
    (group : List Nat) (f : List S) (hf : ∀ g ∈ group, g < f.length) :
    ∃ ranks : List Nat, ComputeRanks sort group f = some ranks ∧
      ranks.length = group.length ∧ ranks.Perm (List.range group.length) ∧
      (∀ r ∈ ranks, r < group.length) ∧ ranks.Nodup := by
  obtain ⟨ranks, σ, hr, hperm, _, hlen, hidx⟩ := ComputeRanks_spec sort hs group f (Or.inr hf)
  have hmap := ranks_eq_map_indexOf ranks σ group.length hlen hidx
  have hp : ranks.Perm (List.range group.length) := by
    rw [hmap]
    exact map_indexOf_perm_range σ group.length hperm
  refine ⟨ranks, hr, hlen, hp, ?_, hp.nodup_iff.mpr (List.nodup_range _)⟩
  intro r hr2
  exact List.mem_range.mp (hp.mem_iff.mp hr2)

/-- Witness of C2 on the group `[0, 1, 2]` with scores `[1, 9, 5]`. -/
theorem ComputeRanks_permutation_witness :
    (∀ g ∈ [0, 1, 2], g < ([1, 9, 5] : List Int).length) ∧
    ∃ ranks : List Nat, ComputeRanks stableInsertionSort [0, 1, 2] ([1, 9, 5] : List Int)
        = some ranks ∧
      ranks.length = [0, 1, 2].length ∧ ranks.Perm (List.range [0, 1, 2].length) ∧
      (∀ r ∈ ranks, r < [0, 1, 2].length) ∧ ranks.Nodup :=
  ⟨by decide, ComputeRanks_permutation stableInsertionSort stableInsertionSort_contract
    [0, 1, 2] [1, 9, 5] (by decide)⟩

/-- C3: the ranks returned by `ComputeRanks` are consistent with descending scores: for
all positions `i`, `j`, if `f[group[i]] > f[group[j]]` then `ranks[i] < ranks[j]`. -/
theorem ComputeRanks_descending {S : Type} [LinearOrder S]
    (sort : (Nat → Nat → Bool) → List Nat → List Nat) (hs : StdSortContract sort)
    (group : List Nat) (f : List S) (hf : ∀ g ∈ group, g < f.length) :
    ∃ ranks : List Nat, ComputeRanks sort group f = some ranks ∧
      ∀ i j a b, scoreAt group f i = some a → scoreAt group f j = some b → a > b →
        ∃ ri rj, ranks[i]? = some ri ∧ ranks[j]? = some rj ∧ ri < rj := by
  obtain ⟨ranks, σ, hr, hperm, hsorted, _, hidx⟩ :=
    ComputeRanks_spec sort hs group f (Or.inr hf)
  refine ⟨ranks, hr, ?_⟩
  intro i j a b hi hj hab
  have hin := scoreAt_lt_length group f i a hi
  have hjn := scoreAt_lt_length group f j b hj
  refine ⟨_, _, hidx i hin, hidx j hjn, ?_⟩
  apply indexOf_lt_of_scoreGreater group f σ hsorted i j
    (hperm.mem_iff.mpr (List.mem_range.mpr hin)) (hperm.mem_iff.mpr (List.mem_range.mpr hjn))
  rw [scoreGreater_of_scoreAt group f i j a b hi hj]
  simpa using hab

/-- Witness of C3 on the group `[0, 1, 2]` with scores `[1, 9, 5]`. -/
theorem ComputeRanks_descending_witness :
    (∀ g ∈ [0, 1, 2], g < ([1, 9, 5] : List Int).length) ∧
    ∃ ranks : List Nat, ComputeRanks stableInsertionSort [0, 1, 2] ([1, 9, 5] : List Int)
        = some ranks ∧
      ∀ i j a b, scoreAt [0, 1, 2] ([1, 9, 5] : List Int) i = some a →
        scoreAt [0, 1, 2] ([1, 9, 5] : List Int) j = some b → a > b →
        ∃ ri rj, ranks[i]? = some ri ∧ ranks[j]? = some rj ∧ ri < rj :=
  ⟨by decide, ComputeRanks_descending stableInsertionSort stableInsertionSort_contract
    [0, 1, 2] [1, 9, 5] (by decide)⟩

/-- The rank of a position is the number of positions with a greater score, when the
scores of the group are pairwise distinct. -/
theorem ComputeRanks_count {S : Type} [LinearOrder S]
    (sort : (Nat → Nat → Bool) → List Nat → List Nat) (hs : StdSortContract sort)
    (group : List Nat) (f : List S) (hf : ∀ g ∈ group, g < f.length)
    (hdist : ∀ i j, i < group.length → j < group.length → i ≠ j →
      scoreAt group f i ≠ scoreAt group f j) :
    ∃ ranks : List Nat, ComputeRanks sort group f = some ranks ∧
      ranks.length = group.length ∧
      ∀ i, i < group.length →
        ranks[i]? = some ((List.range group.length).countP (fun j => scoreGreater group f j i)) := by
  obtain ⟨ranks, σ, hr, hperm, hsorted, hlen, hidx⟩ :=
    ComputeRanks_spec sort hs group f (Or.inr hf)
  refine ⟨ranks, hr, hlen, ?_⟩
  intro i hi
  rw [hidx i hi, ← hperm.countP_eq]
  congr 1
  symm
  apply countP_eq_indexOf (scoreGreater group f) σ (hperm.nodup_iff.mpr (List.nodup_range _))
    hsorted (scoreGreater_irrefl group f) ?_ i (hperm.mem_iff.mpr (List.mem_range.mpr hi))
  intro a ha b hb hab
  have han := List.mem_range.mp (hperm.mem_iff.mp ha)
  have hbn := List.mem_range.mp (hperm.mem_iff.mp hb)
  obtain ⟨x, hx⟩ := scoreAt_isSome group f hf a han
  obtain ⟨y, hy⟩ := scoreAt_isSome group f hf b hbn
  have hne : x ≠ y := by
    intro hxy
    apply hdist a b han hbn hab
    rw [hx, hy, hxy]
  rw [scoreGreater_of_scoreAt group f a b x y hx hy,
    scoreGreater_of_scoreAt group f b a y x hy hx]
  rcases lt_or_gt_of_ne hne with h | h
  · right; simpa using h
  · left; simpa using h

/-- The ranks of the scenario of the specification: scores `[0.1, 0.9, 0.5]` give the ranks
`[2, 0, 1]`, whatever conforming sort is used. -/
theorem ComputeRanks_scenario {R : Type} [LinearOrderedField R]
    (sort : (Nat → Nat → Bool) → List Nat → List Nat) (hs : StdSortContract sort) :
    ComputeRanks sort [0, 1, 2] ([1 / 10, 9 / 10, 1 / 2] : List R) = some [2, 0, 1] := by
  obtain ⟨ranks, hr, hlen, hidx⟩ := ComputeRanks_count sort hs [0, 1, 2]
    ([1 / 10, 9 / 10, 1 / 2] : List R) (by intro g hg; simp at hg ⊢; omega) (by
      intro i j hi hj hij
      simp only [List.length_cons, List.length_nil] at hi hj
      interval_cases i <;> interval_cases j <;> simp [scoreAt] at hij ⊢ <;> norm_num)
  rw [hr]
  have h0 := hidx 0 (by decide)
  have h1 := hidx 1 (by decide)
  have h2 := hidx 2 (by decide)
  have e0 : (List.range ([0, 1, 2] : List Nat).length).countP
      (fun j => scoreGreater [0, 1, 2] ([1 / 10, 9 / 10, 1 / 2] : List R) j 0) = 2 := by
    simp [List.range_succ, List.countP_cons, scoreGreater, scoreAt]
    norm_num
  have e1 : (List.range ([0, 1, 2] : List Nat).length).countP
      (fun j => scoreGreater [0, 1, 2] ([1 / 10, 9 / 10, 1 / 2] : List R) j 1) = 0 := by
    simp [List.range_succ, List.countP_cons, scoreGreater, scoreAt]
    norm_num
  have e2 : (List.range ([0, 1, 2] : List Nat).length).countP
      (fun j => scoreGreater [0, 1, 2] ([1 / 10, 9 / 10, 1 / 2] : List R) j 2) = 1 := by
    simp [List.range_succ, List.countP_cons, scoreGreater, scoreAt]
    norm_num
  rw [e0] at h0
  rw [e1] at h1
  rw [e2] at h2
  match ranks, hlen, h0, h1, h2 with
  | [a, b, c], _, h0, h1, h2 =>
    simp at h0 h1 h2
    simp [h0, h1, h2]

/-- C4: for every group whose positions have pairwise distinct scores, `ComputeRanks`
assigns to each position `i` the number of positions `j` with `f[group[j]] > f[group[i]]`
(its 0-based place in descending score order); on the scores `[0.1, 0.9, 0.5]` the result
is `[2, 0, 1]`. -/
theorem ComputeRanks_distinct_scores {S : Type} [LinearOrder S]
    (sort : (Nat → Nat → Bool) → List Nat → List Nat) (hs : StdSortContract sort) :
    (∀ (group : List Nat) (f : List S), (∀ g ∈ group, g < f.length) →
      (∀ i j, i < group.length → j < group.length → i ≠ j →
        scoreAt group f i ≠ scoreAt group f j) →
      ∃ ranks : List Nat, ComputeRanks sort group f = some ranks ∧
        ranks.length = group.length ∧
        ∀ i, i < group.length →
          ranks[i]? = some ((List.range group.length).countP
            (fun j => scoreGreater group f j i))) ∧
    ComputeRanks sort [0, 1, 2] ([1 / 10, 9 / 10, 1 / 2] : List ℚ) = some [2, 0, 1] :=
  ⟨fun group f hf hdist => ComputeRanks_count sort hs group f hf hdist,
   ComputeRanks_scenario sort hs⟩

/-- Witness of C4: the stable insertion sort on the group `[0, 1, 2]` with the distinct
scores `[1, 9, 5]`, and on the scenario of the specification. -/
theorem ComputeRanks_distinct_scores_witness :
    (∃ ranks : List Nat, ComputeRanks stableInsertionSort [0, 1, 2] ([1, 9, 5] : List Int)
        = some ranks ∧
      ranks.length = [0, 1, 2].length ∧
      ∀ i, i < [0, 1, 2].length →
        ranks[i]? = some ((List.range [0, 1, 2].length).countP
          (fun j => scoreGreater [0, 1, 2] ([1, 9, 5] : List Int) j i))) ∧
    ComputeRanks stableInsertionSort [0, 1, 2] ([1 / 10, 9 / 10, 1 / 2] : List ℚ)
      = some [2, 0, 1] :=
  ⟨(@ComputeRanks_distinct_scores Int _ stableInsertionSort stableInsertionSort_contract).1
      [0, 1, 2] [1, 9, 5] (by decide) (by
        intro i j hi hj hij
        simp only [List.length_cons, List.length_nil] at hi hj
        interval_cases i <;> interval_cases j <;> simp [scoreAt] at hij ⊢),
   (@ComputeRanks_distinct_scores Int _ stableInsertionSort stableInsertionSort_contract).2⟩

/-- The contract of `std::sort` alone does not fix the order of ties: the tie-reversing
insertion sort meets it, and with it positions 0 and 1 of the group `[0, 1]`, which have
the same score, get the ranks 1 and 0. -/
theorem ComputeRanks_tie_not_stable :
    StdSortContract reversingInsertionSort ∧
    scoreAt [0, 1] ([5, 5] : List Int) 0 = scoreAt [0, 1] ([5, 5] : List Int) 1 ∧
    ∃ ranks : List Nat, ComputeRanks reversingInsertionSort [0, 1] ([5, 5] : List Int)
        = some ranks ∧ ranks[0]? = some 1 ∧ ranks[1]? = some 0 :=
  ⟨reversingInsertionSort_contract, by decide, [1, 0], by decide, by decide, by decide⟩

/-- C10 (amended): two distinct positions with equal scores get distinct ranks, and every
position ranked between them has that same score (tied positions fill a block of
consecutive ranks); which of the two comes first is left to `std::sort`. -/
theorem ComputeRanks_ties {S : Type} [LinearOrder S]
    (sort : (Nat → Nat → Bool) → List Nat → List Nat) (hs : StdSortContract sort)
    (group : List Nat) (f : List S) (hf : ∀ g ∈ group, g < f.length) :
    ∃ ranks : List Nat, ComputeRanks sort group f = some ranks ∧
      ∀ i j a, i ≠ j → scoreAt group f i = some a → scoreAt group f j = some a →
        ∃ ri rj, ranks[i]? = some ri ∧ ranks[j]? = some rj ∧ ri ≠ rj ∧
          ∀ k rk, ranks[k]? = some rk → ri < rk → rk < rj → scoreAt group f k = some a := by
  obtain ⟨ranks, σ, hr, hperm, hsorted, hlen, hidx⟩ :=
    ComputeRanks_spec sort hs group f (Or.inr hf)
  have hmem : ∀ i, i < group.length → i ∈ σ := fun i hi =>
    hperm.mem_iff.mpr (List.mem_range.mpr hi)
  refine ⟨ranks, hr, ?_⟩
  intro i j a hij hi hj
  have hin := scoreAt_lt_length group f i a hi
  have hjn := scoreAt_lt_length group f j a hj
  refine ⟨_, _, hidx i hin, hidx j hjn, ?_, ?_⟩
  · intro h
    exact hij ((List.indexOf_inj (hmem i hin) (hmem j hjn)).mp h)
  · intro k rk hk h1 h2
    have hkn : k < group.length := by
      by_contra hcon
      rw [List.getElem?_eq_none (by omega)] at hk
      simp at hk
    rw [hidx k hkn] at hk
    have hk : σ.indexOf k = rk := by simpa using hk
    subst hk
    obtain ⟨c, hc⟩ := scoreAt_isSome group f hf k hkn
    rw [hc]
    congr 1
    rcases lt_trichotomy c a with hlt | heq | hgt
    · have := indexOf_lt_of_scoreGreater group f σ hsorted j k (hmem j hjn) (hmem k hkn)
        (by rw [scoreGreater_of_scoreAt group f j k a c hj hc]; simpa using hlt)
      omega
    · exact heq
    · have := indexOf_lt_of_scoreGreater group f σ hsorted k i (hmem k hkn) (hmem i hin)
        (by rw [scoreGreater_of_scoreAt group f k i c a hc hi]; simpa using hgt)
      omega

/-- Witness of the amended C10 on the group `[0, 1, 2]` with the tied scores `[5, 9, 5]`. -/
theorem ComputeRanks_ties_witness :
    (∀ g ∈ [0, 1, 2], g < ([5, 9, 5] : List Int).length) ∧
    ∃ ranks : List Nat, ComputeRanks stableInsertionSort [0, 1, 2] ([5, 9, 5] : List Int)
        = some ranks ∧
      ∀ i j a, i ≠ j → scoreAt [0, 1, 2] ([5, 9, 5] : List Int) i = some a →
        scoreAt [0, 1, 2] ([5, 9, 5] : List Int) j = some a →
        ∃ ri rj, ranks[i]? = some ri ∧ ranks[j]? = some rj ∧ ri ≠ rj ∧
          ∀ k rk, ranks[k]? = some rk → ri < rk → rk < rj →
            scoreAt [0, 1, 2] ([5, 9, 5] : List Int) k = some a :=
  ⟨by decide, ComputeRanks_ties stableInsertionSort stableInsertionSort_contract
    [0, 1, 2] [5, 9, 5] (by decide)⟩

/-! ## Discount lookup and pair weight: shared lemmas -/

theorem fillDiscounts_size {R : Type} [LinearOrderedField R] (log : R → R) (base : R)
    (k i : Nat) (v : DVec R) : (fillDiscounts log base k i v).size = v.size := by
  induction k generalizing i v with
  | zero => rfl
  | succ k ih => simp [fillDiscounts, ih, DVec.assign]

/-- After the constructor `size()` of the discount table is still 0: `reserve` allocates
and `operator[]` writes cells, neither changes the size. -/
theorem construct_size {R : Type} [LinearOrderedField R] (log : R → R)
    (defaultBase configBase : R) (targets : List R) :
    (LambdaMART.construct log defaultBase configBase targets).precomputed_discounts_.size = 0 := by
  simp [LambdaMART.construct, fillDiscounts_size, DVec.reserve, DVec.empty]

theorem construct_dcg_base {R : Type} [LinearOrderedField R] (log : R → R)
    (defaultBase configBase : R) (targets : List R) :
    (LambdaMART.construct log defaultBase configBase targets).dcg_base_
      = if configBase > 0 then configBase else defaultBase := by
  simp [LambdaMART.construct]

theorem discount__of_size_zero {R : Type} [LinearOrderedField R] (log : R → R)
    (self : LambdaMART R) (h : self.precomputed_discounts_.size = 0) (rank : Nat) :
    self.discount_ log rank = discount log rank self.dcg_base_ := by
  simp [LambdaMART.discount_, h]

/-- The value of the weighting closure on a valid pair, in terms of the two lookups. -/
theorem pairWeight_eq {R : Type} [LinearOrderedField R] (log : R → R) (self : LambdaMART R)
    (group : List Nat) (i j gi gj ri rj : Nat)
    (ti tj : R) (hgi : group[i]? = some gi) (hgj : group[j]? = some gj)
    (hti : self.target_column_[gi]? = some ti) (htj : self.target_column_[gj]? = some tj)
    (hri : self.ranks_[i]? = some ri) (hrj : self.ranks_[j]? = some rj) :
    pairWeight log self group (i, j) = (self.discount_ log ri).bind (fun di =>
      (self.discount_ log rj).map (fun dj => (ti - tj) * |di - dj|)) := by
  simp only [pairWeight, hgi, hgj, hti, htj, hri, hrj]
  cases self.discount_ log ri <;> cases self.discount_ log rj <;> rfl

theorem GeneratePairWeightingFunc_eq {R : Type} [LinearOrderedField R]
    (sort : (Nat → Nat → Bool) → List Nat → List Nat) (log : R → R)
    (self : LambdaMART R) (group : List Nat) (f : List R) (ranks : List Nat)
    (h : ComputeRanks sort group f = some ranks) :
    self.GeneratePairWeightingFunc sort log group f
      = some ((self.setRanks ranks), fun obj p => pairWeight log obj group p) := by
  simp [LambdaMART.GeneratePairWeightingFunc, h]

/-- For a base above 1 the divisor of the real discount is positive, so the discount is the
quotient of the two logarithms. -/
theorem discount_real (b : ℝ) (hb : 1 < b) (r : Nat) :
    discount Real.log r b = some (Real.log b / Real.log (b + (r : ℝ))) := by
  have h1 : (1 : ℝ) < b + (r : ℝ) := by
    have : (0 : ℝ) ≤ (r : ℝ) := Nat.cast_nonneg r
    linarith
  have hl : Real.log (b + (r : ℝ)) ≠ 0 := ne_of_gt (Real.log_pos h1)
  simp [discount, hl]

/-- For a base above 1 the quotient of the discount is strictly decreasing in the rank. -/
theorem quotient_lt_of_lt (b : ℝ) (hb : 1 < b) (r1 r2 : Nat) (h : r1 < r2) :
    Real.log b / Real.log (b + (r2 : ℝ)) < Real.log b / Real.log (b + (r1 : ℝ)) := by
  have hlb : 0 < Real.log b := Real.log_pos hb
  have h1 : (1 : ℝ) < b + (r1 : ℝ) := by
    have : (0 : ℝ) ≤ (r1 : ℝ) := Nat.cast_nonneg r1
    linarith
  have h12 : b + (r1 : ℝ) < b + (r2 : ℝ) := by
    have : (r1 : ℝ) < (r2 : ℝ) := by exact_mod_cast h
    linarith
  have hl1 : 0 < Real.log (b + (r1 : ℝ)) := Real.log_pos h1
  have hl12 : Real.log (b + (r1 : ℝ)) < Real.log (b + (r2 : ℝ)) :=
    Real.log_lt_log (by linarith) h12
  exact div_lt_div_of_pos_left hlb hl1 hl12

theorem quotient_ne_of_ne (b : ℝ) (hb : 1 < b) (r1 r2 : Nat) (h : r1 ≠ r2) :
    Real.log b / Real.log (b + (r1 : ℝ)) ≠ Real.log b / Real.log (b + (r2 : ℝ)) := by
  rcases Nat.lt_or_gt_of_ne h with h | h
  · exact ne_of_gt (quotient_lt_of_lt b hb r1 r2 h)
  · exact ne_of_lt (quotient_lt_of_lt b hb r2 r1 h)

/-- The reads of a valid position: the group entry and its target exist. -/
theorem target_read {R : Type} (group : List Nat) (targets : List R)
    (ht : ∀ g ∈ group, g < targets.length) (i : Nat) (hi : i < group.length) :
    ∃ gi ti, group[i]? = some gi ∧ targets[gi]? = some ti := by
  have hg : group[i] ∈ group := List.getElem_mem hi
  have hlt := ht _ hg
  exact ⟨group[i], targets[group[i]], List.getElem?_eq_getElem hi, List.getElem?_eq_getElem hlt⟩

theorem rank_read (ranks : List Nat) (n : Nat) (hlen : ranks.length = n) (i : Nat)
    (hi : i < n) : ∃ ri, ranks[i]? = some ri :=
  ⟨ranks[i], List.getElem?_eq_getElem (by omega)⟩

/-- Two different positions of a duplicate-free list hold different values. -/
theorem nodup_getElem?_ne (l : List Nat) (hnd : l.Nodup) (i j a b : Nat) (hij : i ≠ j)
    (hi : l[i]? = some a) (hj : l[j]? = some b) : a ≠ b := by
  intro hab
  subst hab
  obtain ⟨hi1, hi2⟩ := List.getElem?_eq_some.mp hi
  obtain ⟨hj1, hj2⟩ := List.getElem?_eq_some.mp hj
  exact hij ((List.Nodup.getElem_inj_iff hnd).mp (hi2.trans hj2.symm))

/-- The generated weighting function on a valid pair: the call succeeds, the object after
the call differs in `ranks_` only, and the weight is the target difference times the
absolute difference of the two discount lookups. -/
theorem weight_after_generate {R : Type} [LinearOrderedField R] (log : R → R)
    (sort : (Nat → Nat → Bool) → List Nat → List Nat) (hs : StdSortContract sort)
    (self : LambdaMART R) (group : List Nat) (f : List R) (hf : ∀ g ∈ group, g < f.length)
    (ht : ∀ g ∈ group, g < self.target_column_.length) :
    ∃ (fn : LambdaMART R → Nat × Nat → Option R) (ranks : List Nat),
      self.GeneratePairWeightingFunc sort log group f
        = some ((self.setRanks ranks), fn) ∧
      ComputeRanks sort group f = some ranks ∧
      ranks.Nodup ∧
      ∀ i j, i < group.length → j < group.length →
        ∃ gi gj ti tj ri rj, group[i]? = some gi ∧ group[j]? = some gj ∧
          self.target_column_[gi]? = some ti ∧ self.target_column_[gj]? = some tj ∧
          ranks[i]? = some ri ∧ ranks[j]? = some rj ∧
          fn (self.setRanks ranks) (i, j) =
            ((self.setRanks ranks).discount_ log ri).bind (fun di =>
              ((self.setRanks ranks).discount_ log rj).map
                (fun dj => (ti - tj) * |di - dj|)) := by
  obtain ⟨ranks, σ, hr, hperm, _, hlen, hidx⟩ := ComputeRanks_spec sort hs group f (Or.inr hf)
  have hnd : ranks.Nodup := by
    rw [ranks_eq_map_indexOf ranks σ group.length hlen hidx]
    exact (map_indexOf_perm_range σ group.length hperm).nodup_iff.mpr (List.nodup_range _)
  refine ⟨_, ranks, GeneratePairWeightingFunc_eq sort log self group f ranks hr, hr, hnd, ?_⟩
  intro i j hi hj
  obtain ⟨gi, ti, hgi, hti⟩ := target_read group self.target_column_ ht i hi
  obtain ⟨gj, tj, hgj, htj⟩ := target_read group self.target_column_ ht j hj
  obtain ⟨ri, hri⟩ := rank_read ranks group.length hlen i hi
  obtain ⟨rj, hrj⟩ := rank_read ranks group.length hlen j hj
  refine ⟨gi, gj, ti, tj, ri, rj, hgi, hgj, hti, htj, hri, hrj, ?_⟩
  exact pairWeight_eq log (self.setRanks ranks) group i j gi gj ri rj ti tj
    hgi hgj hti htj hri hrj

/-- The weight of the pair `(A, B)` in the scenario of the specification is `-0.5`. -/
theorem scenario_weight (sort : (Nat → Nat → Bool) → List Nat → List Nat)
    (hs : StdSortContract sort) (d : ℝ) :
    ∃ (obj : LambdaMART ℝ) (fn : LambdaMART ℝ → Nat × Nat → Option ℝ),
      (LambdaMART.construct Real.log d 2 [0, 1, 0]).GeneratePairWeightingFunc sort Real.log
        [0, 1, 2] [1 / 10, 9 / 10, 1 / 2] = some (obj, fn) ∧
      fn obj (0, 1) = some (-(1 / 2)) := by
  have hr := @ComputeRanks_scenario ℝ _ sort hs
  refine ⟨_, _, GeneratePairWeightingFunc_eq sort Real.log _ _ _ _ hr, ?_⟩
  have h0 : ((LambdaMART.construct Real.log d 2 [0, 1, 0]).setRanks
      [2, 0, 1]).precomputed_discounts_.size = 0 :=
    construct_size Real.log d 2 [0, 1, 0]
  have hb : ((LambdaMART.construct Real.log d 2 [0, 1, 0]).setRanks [2, 0, 1]).dcg_base_ = 2 := by
    simp [LambdaMART.construct, LambdaMART.setRanks]
  have hw := pairWeight_eq Real.log
    ((LambdaMART.construct Real.log d 2 [0, 1, 0]).setRanks [2, 0, 1])
    [0, 1, 2] 0 1 0 1 2 0 0 1 rfl rfl (by simp [LambdaMART.construct, LambdaMART.setRanks])
    (by simp [LambdaMART.construct, LambdaMART.setRanks]) rfl rfl
  have h4 : Real.log 4 = 2 * Real.log 2 := by
    have : (4 : ℝ) = 2 ^ 2 := by norm_num
    rw [this, Real.log_pow]
    norm_num
  have hl2 : Real.log 2 ≠ 0 := ne_of_gt (Real.log_pos (by norm_num))
  have hd2 : discount Real.log 2 (2 : ℝ) = some (1 / 2) := by
    rw [discount_real 2 (by norm_num) 2]
    have : (2 : ℝ) + ((2 : Nat) : ℝ) = 4 := by norm_num
    rw [this, h4]
    congr 1
    field_simp
    ring
  have hd0 : discount Real.log 0 (2 : ℝ) = some 1 := by
    rw [discount_real 2 (by norm_num) 0]
    simp [hl2]
  simp only [hw, discount__of_size_zero Real.log _ h0, hb, hd2, hd0, Option.some_bind,
    Option.map_some']
  norm_num [abs_of_neg]

/-! ## Discount -/

/-- In exact real arithmetic, for every base above 1, the quotient
`ln(base) / ln(base + rank)` strictly decreases as the rank increases. -/
theorem discount_strictly_decreasing (b : ℝ) (hb : 1 < b) (r1 r2 : Nat) (h : r1 < r2) :
    ∃ d1 d2 : ℝ, discount Real.log r1 b = some d1 ∧ discount Real.log r2 b = some d2 ∧
      d1 = Real.log b / Real.log (b + (r1 : ℝ)) ∧
      d2 = Real.log b / Real.log (b + (r2 : ℝ)) ∧ d1 > d2 ∧ d1 ≥ d2 :=
  ⟨_, _, discount_real b hb r1, discount_real b hb r2, rfl, rfl,
    quotient_lt_of_lt b hb r1 r2 h, le_of_lt (quotient_lt_of_lt b hb r1 r2 h)⟩

/-- The exact quotient at base 2 and ranks 0 and 1. -/
theorem discount_strictly_decreasing_witness :
    ∃ d1 d2 : ℝ, discount Real.log 0 (2 : ℝ) = some d1 ∧
      discount Real.log 1 (2 : ℝ) = some d2 ∧
      d1 = Real.log 2 / Real.log (2 + ((0 : Nat) : ℝ)) ∧
      d2 = Real.log 2 / Real.log (2 + ((1 : Nat) : ℝ)) ∧ d1 > d2 ∧ d1 ≥ d2 :=
  discount_strictly_decreasing 2 (by norm_num) 0 1 (by decide)

/-- C6: for every base above 1, `discount(0, base)` equals exactly 1. -/
theorem discount_zero (b : ℝ) (hb : 1 < b) : discount Real.log 0 b = some 1 := by
  rw [discount_real b hb 0]
  have hlb : Real.log b ≠ 0 := ne_of_gt (Real.log_pos hb)
  simp [hlb]

/-- Witness of C6 at base 2. -/
theorem discount_zero_witness : discount Real.log 0 (2 : ℝ) = some 1 :=
  discount_zero 2 (by norm_num)

/-- C7: for every loss object constructed from a configuration, and every rank `r` (below
100 or not), the discount lookup `discount_(r)` equals the direct formula
`discount(r, dcg_base_)`, where `dcg_base_` is the configured base when that is positive. -/
theorem discount__eq_formula {R : Type} [LinearOrderedField R] (log : R → R)
    (defaultBase configBase : R) (targets : List R) (r : Nat) :
    (LambdaMART.construct log defaultBase configBase targets).dcg_base_
      = (if configBase > 0 then configBase else defaultBase) ∧
    (LambdaMART.construct log defaultBase configBase targets).discount_ log r
      = discount log r (LambdaMART.construct log defaultBase configBase targets).dcg_base_ :=
  ⟨construct_dcg_base log defaultBase configBase targets,
   discount__of_size_zero log _ (construct_size log defaultBase configBase targets) r⟩

/-! ## Pair weighting function -/

/-- C1: for every group, score vector `f` and target vector, and every pair `(i, j)` of
valid group-local positions, the function returned by `GeneratePairWeightingFunc(group, f)`
returns `(target[group[i]] - target[group[j]]) * |lookup(ranks[i]) - lookup(ranks[j])|`
where `ranks = ComputeRanks(group, f)`; on the group `[A, B, C]` with scores
`[0.1, 0.9, 0.5]`, targets `[0, 1, 0]` and base 2 the weight of the pair `(A, B)` is `-0.5`. -/
theorem pairWeight_formula {R : Type} [LinearOrderedField R] (log : R → R)
    (sort : (Nat → Nat → Bool) → List Nat → List Nat) (hs : StdSortContract sort)
    (defaultBase configBase : R) (targets : List R) (oldRanks : List Nat)
    (group : List Nat) (f : List R) (hf : ∀ g ∈ group, g < f.length)
    (ht : ∀ g ∈ group, g < targets.length) :
    (∃ (obj : LambdaMART R) (fn : LambdaMART R → Nat × Nat → Option R) (ranks : List Nat),
      ((LambdaMART.construct log defaultBase configBase targets).setRanks
        oldRanks).GeneratePairWeightingFunc sort log group f = some (obj, fn) ∧
      ComputeRanks sort group f = some ranks ∧
      ∀ i j, i < group.length → j < group.length →
        ∃ gi gj ti tj ri rj, group[i]? = some gi ∧ group[j]? = some gj ∧
          targets[gi]? = some ti ∧ targets[gj]? = some tj ∧
          ranks[i]? = some ri ∧ ranks[j]? = some rj ∧
          fn obj (i, j) = (obj.discount_ log ri).bind (fun di =>
            (obj.discount_ log rj).map (fun dj => (ti - tj) * |di - dj|))) ∧
    (∃ (obj : LambdaMART ℝ) (fn : LambdaMART ℝ → Nat × Nat → Option ℝ),
      (LambdaMART.construct Real.log 2 2 [0, 1, 0]).GeneratePairWeightingFunc sort Real.log
        [0, 1, 2] [1 / 10, 9 / 10, 1 / 2] = some (obj, fn) ∧
      fn obj (0, 1) = some (-(1 / 2))) := by
  refine ⟨?_, scenario_weight sort hs 2⟩
  obtain ⟨fn, ranks, hg, hr, _, hw⟩ := weight_after_generate log sort hs
    ((LambdaMART.construct log defaultBase configBase targets).setRanks oldRanks)
    group f hf ht
  exact ⟨_, fn, ranks, hg, hr, hw⟩

/-- Witness of C1: the scenario of the specification with the stable insertion sort. -/
theorem pairWeight_formula_witness :
    (∃ (obj : LambdaMART ℝ) (fn : LambdaMART ℝ → Nat × Nat → Option ℝ) (ranks : List Nat),
      ((LambdaMART.construct Real.log 2 2 [0, 1, 0]).setRanks
        []).GeneratePairWeightingFunc stableInsertionSort Real.log
        [0, 1, 2] [1 / 10, 9 / 10, 1 / 2] = some (obj, fn) ∧
      ComputeRanks stableInsertionSort [0, 1, 2] ([1 / 10, 9 / 10, 1 / 2] : List ℝ)
        = some ranks ∧
      ∀ i j, i < [0, 1, 2].length → j < [0, 1, 2].length →
        ∃ gi gj ti tj ri rj, [0, 1, 2][i]? = some gi ∧ [0, 1, 2][j]? = some gj ∧
          ([0, 1, 0] : List ℝ)[gi]? = some ti ∧ ([0, 1, 0] : List ℝ)[gj]? = some tj ∧
          ranks[i]? = some ri ∧ ranks[j]? = some rj ∧
          fn obj (i, j) = (obj.discount_ Real.log ri).bind (fun di =>
            (obj.discount_ Real.log rj).map (fun dj => (ti - tj) * |di - dj|))) ∧
    (∃ (obj : LambdaMART ℝ) (fn : LambdaMART ℝ → Nat × Nat → Option ℝ),
      (LambdaMART.construct Real.log 2 2 [0, 1, 0]).GeneratePairWeightingFunc
        stableInsertionSort Real.log [0, 1, 2] [1 / 10, 9 / 10, 1 / 2] = some (obj, fn) ∧
      fn obj (0, 1) = some (-(1 / 2))) :=
  pairWeight_formula Real.log stableInsertionSort stableInsertionSort_contract 2 2 [0, 1, 0] []
    [0, 1, 2] [1 / 10, 9 / 10, 1 / 2] (by intro g hg; simp at hg ⊢; omega)
    (by intro g hg; simp at hg ⊢; omega)

/-- In exact real arithmetic, for every group, score vector and base above 1, and every
pair `(i, j)` of group positions with `target[group[i]] > target[group[j]]`, the weight is
strictly positive. -/
theorem pairWeight_pos (sort : (Nat → Nat → Bool) → List Nat → List Nat)
    (hs : StdSortContract sort) (defaultBase configBase : ℝ) (targets : List ℝ)
    (oldRanks : List Nat) (group : List Nat) (f : List ℝ)
    (hbase : 1 < (LambdaMART.construct Real.log defaultBase configBase targets).dcg_base_)
    (hf : ∀ g ∈ group, g < f.length) (ht : ∀ g ∈ group, g < targets.length) :
    ∃ (obj : LambdaMART ℝ) (fn : LambdaMART ℝ → Nat × Nat → Option ℝ),
      ((LambdaMART.construct Real.log defaultBase configBase targets).setRanks
        oldRanks).GeneratePairWeightingFunc sort Real.log group f = some (obj, fn) ∧
      ∀ i j gi gj ti tj, group[i]? = some gi → group[j]? = some gj →
        targets[gi]? = some ti → targets[gj]? = some tj → ti > tj →
        ∃ w, fn obj (i, j) = some w ∧ 0 < w := by
  have h0 : ∀ r : List Nat, (((LambdaMART.construct Real.log defaultBase configBase
      targets).setRanks oldRanks).setRanks r).precomputed_discounts_.size = 0 :=
    fun _ => construct_size Real.log defaultBase configBase targets
  obtain ⟨fn, ranks, hg, _, hnd, hw⟩ := weight_after_generate Real.log sort hs
    ((LambdaMART.construct Real.log defaultBase configBase targets).setRanks oldRanks)
    group f hf ht
  refine ⟨_, fn, hg, ?_⟩
  intro i j gi gj ti tj hgi hgj hti htj hlt
  have hi : i < group.length := (List.getElem?_eq_some.mp hgi).1
  have hj : j < group.length := (List.getElem?_eq_some.mp hgj).1
  obtain ⟨gi2, gj2, ti2, tj2, ri, rj, hgi2, hgj2, hti2, htj2, hri, hrj, hval⟩ := hw i j hi hj
  have e1 : gi2 = gi := by rw [hgi] at hgi2; exact (Option.some.inj hgi2).symm
  have e2 : gj2 = gj := by rw [hgj] at hgj2; exact (Option.some.inj hgj2).symm
  subst e1 e2
  have hti3 : targets[gi2]? = some ti2 := hti2
  have htj3 : targets[gj2]? = some tj2 := htj2
  have e3 : ti2 = ti := by rw [hti] at hti3; exact (Option.some.inj hti3).symm
  have e4 : tj2 = tj := by rw [htj] at htj3; exact (Option.some.inj htj3).symm
  subst e3 e4
  have hij : i ≠ j := by
    intro h
    subst h
    rw [hgi] at hgj
    have := Option.some.inj hgj
    subst this
    rw [hti] at htj
    have := Option.some.inj htj
    subst this
    exact lt_irrefl _ hlt
  have hne : ri ≠ rj := nodup_getElem?_ne ranks hnd i j ri rj hij hri hrj
  have hdi := discount_real ((((LambdaMART.construct Real.log defaultBase configBase
    targets).setRanks oldRanks).setRanks ranks).dcg_base_) hbase ri
  have hdj := discount_real ((((LambdaMART.construct Real.log defaultBase configBase
    targets).setRanks oldRanks).setRanks ranks).dcg_base_) hbase rj
  rw [discount__of_size_zero Real.log _ (h0 ranks), discount__of_size_zero Real.log _
    (h0 ranks), hdi, hdj] at hval
  simp only [Option.some_bind, Option.map_some'] at hval
  refine ⟨_, hval, ?_⟩
  apply mul_pos (sub_pos.mpr hlt)
  apply abs_pos.mpr
  exact sub_ne_zero.mpr (quotient_ne_of_ne _ hbase ri rj hne)

/-- The exact weight in the scenario of the specification, where `B` has the higher
target. -/
theorem pairWeight_pos_witness :
    ∃ (obj : LambdaMART ℝ) (fn : LambdaMART ℝ → Nat × Nat → Option ℝ),
      ((LambdaMART.construct Real.log 2 2 [0, 1, 0]).setRanks
        []).GeneratePairWeightingFunc stableInsertionSort Real.log
        [0, 1, 2] [1 / 10, 9 / 10, 1 / 2] = some (obj, fn) ∧
      ∀ i j gi gj ti tj, [0, 1, 2][i]? = some gi → [0, 1, 2][j]? = some gj →
        ([0, 1, 0] : List ℝ)[gi]? = some ti → ([0, 1, 0] : List ℝ)[gj]? = some tj → ti > tj →
        ∃ w, fn obj (i, j) = some w ∧ 0 < w :=
  pairWeight_pos stableInsertionSort stableInsertionSort_contract 2 2 [0, 1, 0] []
    [0, 1, 2] [1 / 10, 9 / 10, 1 / 2] (by simp [LambdaMART.construct])
    (by intro g hg; simp at hg ⊢; omega) (by intro g hg; simp at hg ⊢; omega)

/-- Counterexample to C11: with the configured base 1, and with 0.5, the constructor
produces an object, whose `dcg_base_` is that value; nothing is rejected. -/
theorem construct_accepts_base_le_one :
    (∃ obj : LambdaMART ℝ, LambdaMART.construct Real.log 2 1 [] = obj ∧ obj.dcg_base_ = 1) ∧
    (∃ obj : LambdaMART ℝ, LambdaMART.construct Real.log 2 (1 / 2) [] = obj ∧
      obj.dcg_base_ = 1 / 2) := by
  refine ⟨⟨_, rfl, ?_⟩, ⟨_, rfl, ?_⟩⟩
  · simp [construct_dcg_base]
  · simp [construct_dcg_base]

/-- C11 (amended): constructing the loss object with a configured `dcg_base` in `(0, 1]`
(for example 1, or 0.5) reports no error: an object is produced, and its `dcg_base_` is the
configured value, at most 1. -/
theorem construct_base_le_one {R : Type} [LinearOrderedField R] (log : R → R)
    (defaultBase configBase : R) (targets : List R) (h0 : 0 < configBase)
    (h1 : configBase ≤ 1) :
    ∃ obj : LambdaMART R, LambdaMART.construct log defaultBase configBase targets = obj ∧
      obj.dcg_base_ = configBase ∧ obj.dcg_base_ ≤ 1 := by
  refine ⟨_, rfl, ?_, ?_⟩
  · rw [construct_dcg_base]
    simp [h0]
  · rw [construct_dcg_base]
    simpa [h0] using h1

/-- Witness of the amended C11 at the configured base 0.5. -/
theorem construct_base_le_one_witness :
    ∃ obj : LambdaMART ℝ, LambdaMART.construct Real.log 2 (1 / 2) [] = obj ∧
      obj.dcg_base_ = 1 / 2 ∧ obj.dcg_base_ ≤ 1 :=
  construct_base_le_one Real.log 2 (1 / 2) [] (by norm_num) (by norm_num)

/-- C12: after construction `dcg_base_` equals the configured `dcg_base` when that value is
positive, and the built-in default otherwise (a configured 0 or negative value leaves the
default unchanged). -/
theorem construct_dcg_base_configured {R : Type} [LinearOrderedField R] (log : R → R)
    (defaultBase configBase : R) (targets : List R) :
    (LambdaMART.construct log defaultBase configBase targets).dcg_base_
      = (if 0 < configBase then configBase else defaultBase) ∧
    (LambdaMART.construct log defaultBase 0 targets).dcg_base_ = defaultBase ∧
    (LambdaMART.construct log defaultBase (-1) targets).dcg_base_ = defaultBase := by
  refine ⟨construct_dcg_base log defaultBase configBase targets, ?_, ?_⟩
  · simp [construct_dcg_base]
  · rw [construct_dcg_base]
    have : ¬ ((-1 : R) > 0) := by
      intro h
      have : (0 : R) < 1 := zero_lt_one
      linarith
    simp [this]

/-! ## Small groups -/

/-- C13: for every group with at most one element and every score vector, `ComputeRanks`
succeeds and returns the empty vector for the empty group and `[0]` for a single-element
group; `GeneratePairWeightingFunc` on the empty group likewise succeeds, leaving an empty
rank state. -/
theorem ComputeRanks_small_group {R : Type} [LinearOrderedField R] (log : R → R)
    (sort : (Nat → Nat → Bool) → List Nat → List Nat) (hs : StdSortContract sort)
    (self : LambdaMART R) (f : List R) (g : Nat) :
    ComputeRanks sort [] f = some [] ∧
    ComputeRanks sort [g] f = some [0] ∧
    ∃ (obj : LambdaMART R) (fn : LambdaMART R → Nat × Nat → Option R),
      self.GeneratePairWeightingFunc sort log [] f = some (obj, fn) ∧ obj.ranks_ = [] := by
  have hnil : sort (scoreGreater [] f) [] = [] :=
    List.Perm.eq_nil (hs.perm _ _ (by simpa using scoreGreater_strictWeakOn [] f (Or.inl (by simp))))
  have hone : sort (scoreGreater [g] f) [0] = [0] :=
    List.perm_singleton.mp
      (hs.perm _ _ (by simpa using scoreGreater_strictWeakOn [g] f (Or.inl (by simp))))
  have h1 : ComputeRanks sort [] f = some [] := by
    simp [ComputeRanks, hnil, storeRanks]
  have h2 : ComputeRanks sort [g] f = some [0] := by
    have hr : List.range 1 = [0] := rfl
    simp [ComputeRanks, hr, hone, storeRanks]
  exact ⟨h1, h2, _, _, GeneratePairWeightingFunc_eq sort log self [] f [] h1, rfl⟩

/-- Witness of C13: the stable insertion sort, a fresh object, the group `[5]` and an
empty score vector. -/
theorem ComputeRanks_small_group_witness :
    ComputeRanks stableInsertionSort [] ([] : List ℝ) = some [] ∧
    ComputeRanks stableInsertionSort [5] ([] : List ℝ) = some [0] ∧
    ∃ (obj : LambdaMART ℝ) (fn : LambdaMART ℝ → Nat × Nat → Option ℝ),
      (LambdaMART.construct Real.log 2 2 []).GeneratePairWeightingFunc stableInsertionSort
        Real.log [] [] = some (obj, fn) ∧ obj.ranks_ = [] :=
  ComputeRanks_small_group Real.log stableInsertionSort stableInsertionSort_contract
    (LambdaMART.construct Real.log 2 2 []) [] 5

/-! ## Discount as a function of the base -/

theorem fillDiscounts_store_length {R : Type} [LinearOrderedField R] (log : R → R) (base : R)
    (k i : Nat) (v : DVec R) : (fillDiscounts log base k i v).store.length = v.store.length := by
  induction k generalizing i v with
  | zero => rfl
  | succ k ih => simp [fillDiscounts, ih, DVec.assign]

/-- The cells the loop of lines 44-46 has written hold the discounts; the other cells are
untouched. -/
theorem fillDiscounts_read {R : Type} [LinearOrderedField R] (log : R → R) (base : R)
    (k i : Nat) (v : DVec R) (p : Nat) :
    (fillDiscounts log base k i v).read p =
      if i ≤ p ∧ p < i + k ∧ p < v.store.length then discount log p base else v.read p := by
  induction k generalizing i v with
  | zero =>
    have : ¬ (i ≤ p ∧ p < i + 0 ∧ p < v.store.length) := by omega
    rw [if_neg this]
    rfl
  | succ k ih =>
    rw [fillDiscounts, ih]
    have hlen : (v.assign i (discount log i base)).store.length = v.store.length := by
      simp [DVec.assign]
    rw [hlen]
    by_cases hip : p = i
    · subst hip
      by_cases hp : p < v.store.length
      · have h1 : ¬ (p + 1 ≤ p ∧ p < p + 1 + k ∧ p < v.store.length) := by omega
        have h2 : p ≤ p ∧ p < p + (k + 1) ∧ p < v.store.length := ⟨le_refl _, by omega, hp⟩
        rw [if_neg h1, if_pos h2]
        simp [DVec.read, DVec.assign, List.getD_eq_getElem?_getD, List.getElem?_set_self, hp]
      · have h1 : ¬ (p + 1 ≤ p ∧ p < p + 1 + k ∧ p < v.store.length) := by omega
        have h2 : ¬ (p ≤ p ∧ p < p + (k + 1) ∧ p < v.store.length) := by omega
        rw [if_neg h1, if_neg h2]
        have hle : v.store.length ≤ p := by omega
        simp [DVec.read, DVec.assign, List.getD_eq_getElem?_getD, List.getElem?_eq_none, hle]
    · have hne : i ≠ p := fun h => hip h.symm
      have hread : (v.assign i (discount log i base)).read p = v.read p := by
        simp [DVec.read, DVec.assign, List.getD_eq_getElem?_getD, List.getElem?_set_ne hne]
      rw [hread]
      by_cases hc : i + 1 ≤ p ∧ p < i + 1 + k ∧ p < v.store.length
      · have h2 : i ≤ p ∧ p < i + (k + 1) ∧ p < v.store.length := by omega
        rw [if_pos hc, if_pos h2]
      · have h2 : ¬ (i ≤ p ∧ p < i + (k + 1) ∧ p < v.store.length) := by omega
        rw [if_neg hc, if_neg h2]

/-- Evaluation of the constructor for C15: after construction `size()` of the table is 0,
not 100; the reserved storage has 100 cells, and cell `r` holds `discount(r, dcg_base_)`;
`rank < size()` is false for every rank, so the lookup never takes the cached branch. -/
theorem construct_table_size {R : Type} [LinearOrderedField R] (log : R → R)
    (defaultBase configBase : R) (targets : List R) :
    (LambdaMART.construct log defaultBase configBase targets).precomputed_discounts_.size = 0 ∧
    (LambdaMART.construct log defaultBase configBase targets).precomputed_discounts_.store.length
      = kNumPrecomputedDiscounts ∧
    (∀ r, r < kNumPrecomputedDiscounts →
      (LambdaMART.construct log defaultBase configBase targets).precomputed_discounts_.read r
        = discount log r (LambdaMART.construct log defaultBase configBase targets).dcg_base_) ∧
    ∀ r, ¬ (r < (LambdaMART.construct log defaultBase configBase
      targets).precomputed_discounts_.size) := by
  have hsize := construct_size log defaultBase configBase targets
  refine ⟨hsize, ?_, ?_, ?_⟩
  · simp [LambdaMART.construct, fillDiscounts_store_length, DVec.reserve, DVec.empty]
  · intro r hr
    have hlen : ((DVec.empty : DVec R).reserve kNumPrecomputedDiscounts).store.length
        = kNumPrecomputedDiscounts := by
      simp [DVec.reserve, DVec.empty]
    show (fillDiscounts log _ kNumPrecomputedDiscounts 0 _).read r = _
    rw [fillDiscounts_read, hlen]
    have : 0 ≤ r ∧ r < 0 + kNumPrecomputedDiscounts ∧ r < kNumPrecomputedDiscounts :=
      ⟨Nat.zero_le _, by omega, hr⟩
    rw [if_pos this]
    rfl
  · intro r
    rw [hsize]
    omega

/-! ## State written and state kept by `GeneratePairWeightingFunc` -/

/-- The call `ComputeRanks(group, f)` returns, whatever `sort` does, when the score vector
covers the group. -/
theorem ComputeRanks_defined {S : Type} [LinearOrder S]
    (sort : (Nat → Nat → Bool) → List Nat → List Nat) (group : List Nat) (f : List S)
    (hdef : group.length ≤ 1 ∨ ∀ g ∈ group, g < f.length) :
    ∃ ranks, ComputeRanks sort group f = some ranks :=
  ⟨storeRanks (sort (scoreGreater group f) (List.range group.length)) 0
    (List.replicate group.length 0), by simp only [ComputeRanks, if_pos hdef]⟩

/-- C16: `GeneratePairWeightingFunc(group, f)` overwrites the rank state `ranks_` with
`ComputeRanks(group, f)` whatever it held before, and leaves `dcg_base_`, the precomputed
discount table and the discount lookup unchanged; a weighting function obtained from an
earlier call reads the overwritten `ranks_`. -/
theorem GeneratePairWeightingFunc_frame {R : Type} [LinearOrderedField R] (log : R → R)
    (sort : (Nat → Nat → Bool) → List Nat → List Nat) (self : LambdaMART R)
    (group : List Nat) (f : List R) (hf : ∀ g ∈ group, g < f.length)
    (group2 : List Nat) (f2 : List R) (hf2 : ∀ g ∈ group2, g < f2.length) :
    ∃ (obj : LambdaMART R) (fn : LambdaMART R → Nat × Nat → Option R) (ranks : List Nat),
      self.GeneratePairWeightingFunc sort log group f = some (obj, fn) ∧
      ComputeRanks sort group f = some ranks ∧
      obj.ranks_ = ranks ∧ obj.dcg_base_ = self.dcg_base_ ∧
      obj.precomputed_discounts_ = self.precomputed_discounts_ ∧
      (∀ r, obj.discount_ log r = self.discount_ log r) ∧
      ∃ (obj2 : LambdaMART R) (fn2 : LambdaMART R → Nat × Nat → Option R)
        (ranks2 : List Nat),
        obj.GeneratePairWeightingFunc sort log group2 f2 = some (obj2, fn2) ∧
        ComputeRanks sort group2 f2 = some ranks2 ∧ obj2.ranks_ = ranks2 ∧
        ∀ i j gi gj ri rj ti tj, group[i]? = some gi → group[j]? = some gj →
          self.target_column_[gi]? = some ti → self.target_column_[gj]? = some tj →
          ranks2[i]? = some ri → ranks2[j]? = some rj →
          fn obj2 (i, j) = (obj2.discount_ log ri).bind (fun di =>
            (obj2.discount_ log rj).map (fun dj => (ti - tj) * |di - dj|)) := by
  obtain ⟨ranks, hr⟩ := ComputeRanks_defined sort group f (Or.inr hf)
  obtain ⟨ranks2, hr2⟩ := ComputeRanks_defined sort group2 f2 (Or.inr hf2)
  refine ⟨_, _, ranks, GeneratePairWeightingFunc_eq sort log self group f ranks hr, hr, rfl,
    rfl, rfl, fun _ => rfl, _, _, ranks2,
    GeneratePairWeightingFunc_eq sort log _ group2 f2 ranks2 hr2, hr2, rfl, ?_⟩
  intro i j gi gj ri rj ti tj hgi hgj hti htj hri hrj
  exact pairWeight_eq log ((self.setRanks ranks).setRanks ranks2) group i j gi gj ri rj ti tj
    hgi hgj hti htj hri hrj

/-- Witness of C16: two calls on the scenario of the specification, the second with the
scores of `A` and `C` swapped. -/
theorem GeneratePairWeightingFunc_frame_witness :
    ∃ (obj : LambdaMART ℝ) (fn : LambdaMART ℝ → Nat × Nat → Option ℝ) (ranks : List Nat),
      (LambdaMART.construct Real.log 2 2 [0, 1, 0]).GeneratePairWeightingFunc
        stableInsertionSort Real.log [0, 1, 2] [1 / 10, 9 / 10, 1 / 2] = some (obj, fn) ∧
      ComputeRanks stableInsertionSort [0, 1, 2] ([1 / 10, 9 / 10, 1 / 2] : List ℝ)
        = some ranks ∧
      obj.ranks_ = ranks ∧
      obj.dcg_base_ = (LambdaMART.construct Real.log 2 2 [0, 1, 0]).dcg_base_ ∧
      obj.precomputed_discounts_
        = (LambdaMART.construct Real.log 2 2 [0, 1, 0]).precomputed_discounts_ ∧
      (∀ r, obj.discount_ Real.log r
        = (LambdaMART.construct Real.log 2 2 [0, 1, 0]).discount_ Real.log r) ∧
      ∃ (obj2 : LambdaMART ℝ) (fn2 : LambdaMART ℝ → Nat × Nat → Option ℝ)
        (ranks2 : List Nat),
        obj.GeneratePairWeightingFunc stableInsertionSort Real.log [0, 1, 2]
          [1 / 2, 9 / 10, 1 / 10] = some (obj2, fn2) ∧
        ComputeRanks stableInsertionSort [0, 1, 2] ([1 / 2, 9 / 10, 1 / 10] : List ℝ)
          = some ranks2 ∧ obj2.ranks_ = ranks2 ∧
        ∀ i j gi gj ri rj ti tj, [0, 1, 2][i]? = some gi → [0, 1, 2][j]? = some gj →
          (LambdaMART.construct Real.log 2 2 [0, 1, 0]).target_column_[gi]? = some ti →
          (LambdaMART.construct Real.log 2 2 [0, 1, 0]).target_column_[gj]? = some tj →
          ranks2[i]? = some ri → ranks2[j]? = some rj →
          fn obj2 (i, j) = (obj2.discount_ Real.log ri).bind (fun di =>
            (obj2.discount_ Real.log rj).map (fun dj => (ti - tj) * |di - dj|)) :=
  GeneratePairWeightingFunc_frame Real.log stableInsertionSort
    (LambdaMART.construct Real.log 2 2 [0, 1, 0]) [0, 1, 2] [1 / 10, 9 / 10, 1 / 2]
    (by intro g hg; simp at hg ⊢; omega) [0, 1, 2] [1 / 2, 9 / 10, 1 / 10]
    (by intro g hg; simp at hg ⊢; omega)

/-! ## Antisymmetry and bound of the weight -/

/-- Swapping the two positions of a pair negates the value of the weighting closure (and
keeps it undefined where it is undefined). -/
theorem pairWeight_swap {R : Type} [LinearOrderedField R] (log : R → R) (self : LambdaMART R)
    (group : List Nat) (i j : Nat) :
    pairWeight log self group (i, j) = (pairWeight log self group (j, i)).map (fun w => -w) := by
  simp only [pairWeight]
  cases group[i]? with
  | none => cases group[j]? <;> rfl
  | some gi =>
    cases group[j]? with
    | none => rfl
    | some gj =>
      simp only []
      cases self.target_column_[gi]? with
      | none => cases self.target_column_[gj]? <;> rfl
      | some ti =>
        cases self.target_column_[gj]? with
        | none => rfl
        | some tj =>
          simp only []
          cases self.ranks_[i]? with
          | none => cases self.ranks_[j]? <;> rfl
          | some ri =>
            cases self.ranks_[j]? with
            | none => rfl
            | some rj =>
              simp only []
              cases self.discount_ log ri with
              | none => cases self.discount_ log rj <;> rfl
              | some di =>
                cases self.discount_ log rj with
                | none => rfl
                | some dj =>
                  simp only [Option.map_some']
                  congr 1
                  rw [abs_sub_comm dj di]
                  ring

/-- C17: the generated weighting function is antisymmetric: for every group, score vector,
target vector and pair of positions `(i, j)`, `weight(i, j) = -weight(j, i)`. -/
theorem pairWeight_antisymmetric {R : Type} [LinearOrderedField R] (log : R → R)
    (sort : (Nat → Nat → Bool) → List Nat → List Nat) (self : LambdaMART R)
    (group : List Nat) (f : List R) (hf : ∀ g ∈ group, g < f.length) :
    ∃ (obj : LambdaMART R) (fn : LambdaMART R → Nat × Nat → Option R),
      self.GeneratePairWeightingFunc sort log group f = some (obj, fn) ∧
      ∀ i j, fn obj (i, j) = (fn obj (j, i)).map (fun w => -w) := by
  obtain ⟨ranks, hr⟩ := ComputeRanks_defined sort group f (Or.inr hf)
  exact ⟨_, _, GeneratePairWeightingFunc_eq sort log self group f ranks hr,
    fun i j => pairWeight_swap log _ group i j⟩

/-- Witness of C17: in the scenario of the specification the pair `(A, B)` weighs `-0.5`
and the pair `(B, A)` weighs `0.5`. -/
theorem pairWeight_antisymmetric_witness :
    ∃ (obj : LambdaMART ℝ) (fn : LambdaMART ℝ → Nat × Nat → Option ℝ),
      (LambdaMART.construct Real.log 2 2 [0, 1, 0]).GeneratePairWeightingFunc
        stableInsertionSort Real.log [0, 1, 2] [1 / 10, 9 / 10, 1 / 2] = some (obj, fn) ∧
      fn obj (0, 1) = some (-(1 / 2)) ∧ fn obj (1, 0) = some (1 / 2) := by
  obtain ⟨obj, fn, hg, h⟩ := pairWeight_antisymmetric Real.log stableInsertionSort
    (LambdaMART.construct Real.log 2 2 [0, 1, 0]) [0, 1, 2] [1 / 10, 9 / 10, 1 / 2]
    (by intro g hg; simp at hg ⊢; omega)
  obtain ⟨obj2, fn2, hg2, hw⟩ := scenario_weight stableInsertionSort
    stableInsertionSort_contract 2
  rw [hg] at hg2
  have hpair := Option.some.inj hg2
  have ho : obj = obj2 := congrArg Prod.fst hpair
  have hfn : fn = fn2 := congrArg Prod.snd hpair
  subst ho hfn
  refine ⟨obj, fn, hg, hw, ?_⟩
  rw [h 1 0, hw]
  simp

/-- For a base above 1 the quotient of the discount lies in `(0, 1]`. -/
theorem quotient_mem_unit (b : ℝ) (hb : 1 < b) (r : Nat) :
    0 < Real.log b / Real.log (b + (r : ℝ)) ∧ Real.log b / Real.log (b + (r : ℝ)) ≤ 1 := by
  have hlb : 0 < Real.log b := Real.log_pos hb
  have hr : (0 : ℝ) ≤ (r : ℝ) := Nat.cast_nonneg r
  have hle : Real.log b ≤ Real.log (b + (r : ℝ)) := Real.log_le_log (by linarith) (by linarith)
  have hl : 0 < Real.log (b + (r : ℝ)) := lt_of_lt_of_le hlb hle
  exact ⟨div_pos hlb hl, (div_le_one hl).mpr hle⟩

/-- Two numbers of `(0, 1]` differ by less than 1. -/
theorem abs_sub_lt_one_of_unit (x y : ℝ) (hx : 0 < x ∧ x ≤ 1) (hy : 0 < y ∧ y ≤ 1) :
    |x - y| < 1 := by
  rw [abs_lt]
  constructor <;> linarith [hx.1, hx.2, hy.1, hy.2]

/-- The weight of a valid pair for a real base above 1, with the discounts written out. -/
theorem weight_real_value (sort : (Nat → Nat → Bool) → List Nat → List Nat)
    (hs : StdSortContract sort) (defaultBase configBase : ℝ) (targets : List ℝ)
    (oldRanks : List Nat) (group : List Nat) (f : List ℝ)
    (hbase : 1 < (LambdaMART.construct Real.log defaultBase configBase targets).dcg_base_)
    (hf : ∀ g ∈ group, g < f.length) (ht : ∀ g ∈ group, g < targets.length) :
    ∃ (obj : LambdaMART ℝ) (fn : LambdaMART ℝ → Nat × Nat → Option ℝ),
      ((LambdaMART.construct Real.log defaultBase configBase targets).setRanks
        oldRanks).GeneratePairWeightingFunc sort Real.log group f = some (obj, fn) ∧
      ∀ i j gi gj ti tj, group[i]? = some gi → group[j]? = some gj →
        targets[gi]? = some ti → targets[gj]? = some tj →
        ∃ ri rj : Nat, fn obj (i, j) = some ((ti - tj) *
          |Real.log (LambdaMART.construct Real.log defaultBase configBase targets).dcg_base_
              / Real.log ((LambdaMART.construct Real.log defaultBase configBase
                targets).dcg_base_ + (ri : ℝ))
            - Real.log (LambdaMART.construct Real.log defaultBase configBase targets).dcg_base_
              / Real.log ((LambdaMART.construct Real.log defaultBase configBase
                targets).dcg_base_ + (rj : ℝ))|) := by
  have h0 : ∀ r : List Nat, (((LambdaMART.construct Real.log defaultBase configBase
      targets).setRanks oldRanks).setRanks r).precomputed_discounts_.size = 0 :=
    fun _ => construct_size Real.log defaultBase configBase targets
  obtain ⟨fn, ranks, hg, _, _, hw⟩ := weight_after_generate Real.log sort hs
    ((LambdaMART.construct Real.log defaultBase configBase targets).setRanks oldRanks)
    group f hf ht
  refine ⟨_, fn, hg, ?_⟩
  intro i j gi gj ti tj hgi hgj hti htj
  have hi : i < group.length := (List.getElem?_eq_some.mp hgi).1
  have hj : j < group.length := (List.getElem?_eq_some.mp hgj).1
  obtain ⟨gi2, gj2, ti2, tj2, ri, rj, hgi2, hgj2, hti2, htj2, _, _, hval⟩ := hw i j hi hj
  have e1 : gi2 = gi := by rw [hgi] at hgi2; exact (Option.some.inj hgi2).symm
  have e2 : gj2 = gj := by rw [hgj] at hgj2; exact (Option.some.inj hgj2).symm
  subst e1 e2
  have hti3 : targets[gi2]? = some ti2 := hti2
  have htj3 : targets[gj2]? = some tj2 := htj2
  have e3 : ti2 = ti := by rw [hti] at hti3; exact (Option.some.inj hti3).symm
  have e4 : tj2 = tj := by rw [htj] at htj3; exact (Option.some.inj htj3).symm
  subst e3 e4
  have hdi := discount_real ((((LambdaMART.construct Real.log defaultBase configBase
    targets).setRanks oldRanks).setRanks ranks).dcg_base_) hbase ri
  have hdj := discount_real ((((LambdaMART.construct Real.log defaultBase configBase
    targets).setRanks oldRanks).setRanks ranks).dcg_base_) hbase rj
  rw [discount__of_size_zero Real.log _ (h0 ranks), discount__of_size_zero Real.log _
    (h0 ranks), hdi, hdj] at hval
  simp only [Option.some_bind, Option.map_some'] at hval
  exact ⟨ri, rj, hval⟩

/-- C18: for every base above 1 every discount value lies in `(0, 1]`, so the weight is
bounded by the label difference: for every group, score vector and pair `(i, j)`,
`|weight(i, j)| < |target[group[i]] - target[group[j]]|` when the targets differ, and
`weight(i, j) = 0` when they are equal. -/
theorem pairWeight_bounded (sort : (Nat → Nat → Bool) → List Nat → List Nat)
    (hs : StdSortContract sort) (defaultBase configBase : ℝ) (targets : List ℝ)
    (oldRanks : List Nat) (group : List Nat) (f : List ℝ)
    (hbase : 1 < (LambdaMART.construct Real.log defaultBase configBase targets).dcg_base_)
    (hf : ∀ g ∈ group, g < f.length) (ht : ∀ g ∈ group, g < targets.length) :
    (∀ r : Nat, ∃ d : ℝ,
      ((LambdaMART.construct Real.log defaultBase configBase targets).setRanks
        oldRanks).discount_ Real.log r = some d ∧ 0 < d ∧ d ≤ 1) ∧
    ∃ (obj : LambdaMART ℝ) (fn : LambdaMART ℝ → Nat × Nat → Option ℝ),
      ((LambdaMART.construct Real.log defaultBase configBase targets).setRanks
        oldRanks).GeneratePairWeightingFunc sort Real.log group f = some (obj, fn) ∧
      ∀ i j gi gj ti tj, group[i]? = some gi → group[j]? = some gj →
        targets[gi]? = some ti → targets[gj]? = some tj →
        ∃ w, fn obj (i, j) = some w ∧ (ti ≠ tj → |w| < |ti - tj|) ∧ (ti = tj → w = 0) := by
  constructor
  · intro r
    have h0 : ((LambdaMART.construct Real.log defaultBase configBase targets).setRanks
        oldRanks).precomputed_discounts_.size = 0 :=
      construct_size Real.log defaultBase configBase targets
    have hd := discount_real (((LambdaMART.construct Real.log defaultBase configBase
      targets).setRanks oldRanks).dcg_base_) hbase r
    rw [discount__of_size_zero Real.log _ h0, hd]
    exact ⟨_, rfl, quotient_mem_unit _ hbase r⟩
  · obtain ⟨obj, fn, hg, hw⟩ := weight_real_value sort hs defaultBase configBase targets
      oldRanks group f hbase hf ht
    refine ⟨obj, fn, hg, ?_⟩
    intro i j gi gj ti tj hgi hgj hti htj
    obtain ⟨ri, rj, hval⟩ := hw i j gi gj ti tj hgi hgj hti htj
    refine ⟨_, hval, ?_, ?_⟩
    · intro hne
      have hpos : 0 < |ti - tj| := abs_pos.mpr (sub_ne_zero.mpr hne)
      have hlt := abs_sub_lt_one_of_unit _ _ (quotient_mem_unit _ hbase ri)
        (quotient_mem_unit _ hbase rj)
      rw [abs_mul, abs_abs]
      calc |ti - tj| * _ < |ti - tj| * 1 := mul_lt_mul_of_pos_left hlt hpos
        _ = |ti - tj| := mul_one _
    · intro heq
      rw [heq]
      simp

/-- Witness of C18: the scenario of the specification, base 2. -/
theorem pairWeight_bounded_witness :
    (∀ r : Nat, ∃ d : ℝ,
      ((LambdaMART.construct Real.log 2 2 [0, 1, 0]).setRanks []).discount_ Real.log r
        = some d ∧ 0 < d ∧ d ≤ 1) ∧
    ∃ (obj : LambdaMART ℝ) (fn : LambdaMART ℝ → Nat × Nat → Option ℝ),
      ((LambdaMART.construct Real.log 2 2 [0, 1, 0]).setRanks
        []).GeneratePairWeightingFunc stableInsertionSort Real.log
        [0, 1, 2] [1 / 10, 9 / 10, 1 / 2] = some (obj, fn) ∧
      ∀ i j gi gj ti tj, [0, 1, 2][i]? = some gi → [0, 1, 2][j]? = some gj →
        ([0, 1, 0] : List ℝ)[gi]? = some ti → ([0, 1, 0] : List ℝ)[gj]? = some tj →
        ∃ w, fn obj (i, j) = some w ∧ (ti ≠ tj → |w| < |ti - tj|) ∧ (ti = tj → w = 0) :=
  pairWeight_bounded stableInsertionSort stableInsertionSort_contract 2 2 [0, 1, 0] []
    [0, 1, 2] [1 / 10, 9 / 10, 1 / 2] (by simp [LambdaMART.construct])
    (by intro g hg; simp at hg ⊢; omega) (by intro g hg; simp at hg ⊢; omega)

/-! ## Conversion to `float` -/

theorem roundNearestEven_floor_le {R : Type} [LinearOrderedField R] [FloorRing R] (q : R) : ⌊q⌋ ≤ roundNearestEven q := by
  unfold roundNearestEven
  split_ifs <;> omega

theorem roundNearestEven_le_floor_succ {R : Type} [LinearOrderedField R] [FloorRing R] (q : R) : roundNearestEven q ≤ ⌊q⌋ + 1 := by
  unfold roundNearestEven
  split_ifs <;> omega

theorem roundNearestEven_intCast {R : Type} [LinearOrderedField R] [FloorRing R] (n : ℤ) : roundNearestEven (n : R) = n := by
  unfold roundNearestEven
  simp

theorem roundNearestEven_mono {R : Type} [LinearOrderedField R] [FloorRing R] {q1 q2 : R} (h : q1 ≤ q2) :
    roundNearestEven q1 ≤ roundNearestEven q2 := by
  rcases lt_or_eq_of_le (Int.floor_mono h) with hlt | heq
  · calc roundNearestEven q1 ≤ ⌊q1⌋ + 1 := roundNearestEven_le_floor_succ q1
      _ ≤ ⌊q2⌋ := hlt
      _ ≤ roundNearestEven q2 := roundNearestEven_floor_le q2
  · have hf : q1 - (⌊q1⌋ : R) ≤ q2 - (⌊q2⌋ : R) := by
      rw [heq]
      linarith
    unfold roundNearestEven
    rw [heq]
    rw [heq] at hf
    split_ifs <;> first | omega | (exfalso; linarith)

theorem two_zpow_pos {R : Type} [LinearOrderedField R] (z : ℤ) : (0 : R) < (2 : R) ^ z := zpow_pos (by norm_num) z

/-- The scaled significand of a positive number lies in `[2^23, 2^24)`. -/
theorem significand_bounds {R : Type} [LinearOrderedField R] [FloorRing R] {x : R} (hx : 0 < x) :
    (((2 : ℤ) ^ 23 : ℤ) : R) ≤ x / (2 : R) ^ (Int.log 2 x - 23) ∧
    x / (2 : R) ^ (Int.log 2 x - 23) ≤ (((2 : ℤ) ^ 24 : ℤ) : R) := by
  have hu : (0 : R) < (2 : R) ^ (Int.log 2 x - 23) := two_zpow_pos _
  have h1 : (2 : R) ^ Int.log 2 x ≤ x := by
    have h : ((2 : ℕ) : R) ^ Int.log 2 x ≤ x := Int.zpow_log_le_self (by norm_num) hx
    simpa using h
  have h2 : x < (2 : R) ^ (Int.log 2 x + 1) := by
    have h : x < ((2 : ℕ) : R) ^ (Int.log 2 x + 1) := Int.lt_zpow_succ_log_self (by norm_num) x
    simpa using h
  have e1 : (2 : R) ^ Int.log 2 x = (2 : R) ^ (23 : ℤ) * (2 : R) ^ (Int.log 2 x - 23) := by
    rw [← zpow_add₀ (by norm_num : (2 : R) ≠ 0)]
    congr 1
    ring
  have e2 : (2 : R) ^ (Int.log 2 x + 1) = (2 : R) ^ (24 : ℤ) * (2 : R) ^ (Int.log 2 x - 23) := by
    rw [← zpow_add₀ (by norm_num : (2 : R) ≠ 0)]
    congr 1
    ring
  constructor
  · rw [le_div_iff₀ hu]
    have : (((2 : ℤ) ^ 23 : ℤ) : R) = (2 : R) ^ (23 : ℤ) := by norm_num
    rw [this, ← e1]
    exact h1
  · rw [div_le_iff₀ hu]
    have : (((2 : ℤ) ^ 24 : ℤ) : R) = (2 : R) ^ (24 : ℤ) := by norm_num
    rw [this, ← e2]
    exact le_of_lt h2

/-- Rounding of a positive number stays within its binade: `2^e ≤ fl(x) ≤ 2^(e+1)`. -/
theorem roundF32Pos_bounds {R : Type} [LinearOrderedField R] [FloorRing R] {x : R} (hx : 0 < x) :
    (2 : R) ^ Int.log 2 x ≤ roundF32Pos x ∧ roundF32Pos x ≤ (2 : R) ^ (Int.log 2 x + 1) := by
  have hu : (0 : R) < (2 : R) ^ (Int.log 2 x - 23) := two_zpow_pos _
  obtain ⟨hlo, hhi⟩ := significand_bounds hx
  have h1 := roundNearestEven_mono hlo
  have h2 := roundNearestEven_mono hhi
  rw [roundNearestEven_intCast] at h1 h2
  have e1 : (2 : R) ^ Int.log 2 x = (2 : R) ^ (23 : ℤ) * (2 : R) ^ (Int.log 2 x - 23) := by
    rw [← zpow_add₀ (by norm_num : (2 : R) ≠ 0)]
    congr 1
    ring
  have e2 : (2 : R) ^ (Int.log 2 x + 1) = (2 : R) ^ (24 : ℤ) * (2 : R) ^ (Int.log 2 x - 23) := by
    rw [← zpow_add₀ (by norm_num : (2 : R) ≠ 0)]
    congr 1
    ring
  unfold roundF32Pos
  constructor
  · rw [e1]
    apply mul_le_mul_of_nonneg_right _ (le_of_lt hu)
    have : ((2 : R) ^ (23 : ℤ)) = (((2 : ℤ) ^ 23 : ℤ) : R) := by norm_num
    rw [this]
    exact_mod_cast h1
  · rw [e2]
    apply mul_le_mul_of_nonneg_right _ (le_of_lt hu)
    have : ((2 : R) ^ (24 : ℤ)) = (((2 : ℤ) ^ 24 : ℤ) : R) := by norm_num
    rw [this]
    exact_mod_cast h2

theorem roundF32Pos_pos {R : Type} [LinearOrderedField R] [FloorRing R] {x : R} (hx : 0 < x) : 0 < roundF32Pos x :=
  lt_of_lt_of_le (two_zpow_pos _) (roundF32Pos_bounds hx).1

theorem roundF32Pos_mono {R : Type} [LinearOrderedField R] [FloorRing R] {x y : R} (hx : 0 < x) (hxy : x ≤ y) :
    roundF32Pos x ≤ roundF32Pos y := by
  have hy : 0 < y := lt_of_lt_of_le hx hxy
  rcases lt_or_eq_of_le (@Int.log_mono_right R _ _ 2 x y hx hxy) with hlt | heq
  · calc roundF32Pos x ≤ (2 : R) ^ (Int.log 2 x + 1) := (roundF32Pos_bounds hx).2
      _ ≤ (2 : R) ^ Int.log 2 y := zpow_le_zpow_right₀ (by norm_num) hlt
      _ ≤ roundF32Pos y := (roundF32Pos_bounds hy).1
  · unfold roundF32Pos
    rw [heq]
    have hu : (0 : R) < (2 : R) ^ (Int.log 2 y - 23) := two_zpow_pos _
    apply mul_le_mul_of_nonneg_right _ (le_of_lt hu)
    have : x / (2 : R) ^ (Int.log 2 y - 23) ≤ y / (2 : R) ^ (Int.log 2 y - 23) :=
      div_le_div_of_nonneg_right hxy (le_of_lt hu)
    exact_mod_cast roundNearestEven_mono this

theorem roundF32_nonneg {R : Type} [LinearOrderedField R] [FloorRing R] {x : R} (hx : 0 ≤ x) : 0 ≤ roundF32 x := by
  unfold roundF32
  rcases lt_or_eq_of_le hx with h | h
  · rw [if_pos h]
    exact le_of_lt (roundF32Pos_pos h)
  · rw [← h]
    simp

/-- Conversion to `float` is monotone on the non-negative numbers. -/
theorem roundF32_mono {R : Type} [LinearOrderedField R] [FloorRing R] {x y : R} (hx : 0 ≤ x) (hxy : x ≤ y) : roundF32 x ≤ roundF32 y := by
  rcases lt_or_eq_of_le hx with h | h
  · have hy : 0 < y := lt_of_lt_of_le h hxy
    unfold roundF32
    rw [if_pos h, if_pos hy]
    exact roundF32Pos_mono h hxy
  · have h0 : roundF32 x = 0 := by
      rw [← h]
      simp [roundF32]
    rw [h0]
    exact roundF32_nonneg (le_trans hx hxy)

/-- A number `k * 2^j` with a 24-bit significand `k` is a `float`: conversion keeps it. -/
theorem roundF32_significand {R : Type} [LinearOrderedField R] [FloorRing R] (k : ℕ) (hk1 : 2 ^ 23 ≤ k) (hk2 : k < 2 ^ 24) (j : ℤ) :
    roundF32 ((k : R) * (2 : R) ^ j) = (k : R) * (2 : R) ^ j := by
  have hj : (0 : R) < (2 : R) ^ j := two_zpow_pos j
  have hkpos : (0 : R) < (k : R) := by
    have : 0 < k := lt_of_lt_of_le (by norm_num) hk1
    exact_mod_cast this
  have hx : (0 : R) < (k : R) * (2 : R) ^ j := mul_pos hkpos hj
  have hlog : Int.log 2 ((k : R) * (2 : R) ^ j) = 23 + j := by
    apply le_antisymm
    · have : Int.log 2 ((k : R) * (2 : R) ^ j) < 24 + j := by
        rw [← Int.lt_zpow_iff_log_lt (by norm_num) hx]
        have e : ((2 : ℕ) : R) ^ (24 + j) = (2 : R) ^ (24 : ℤ) * (2 : R) ^ j := by
          rw [← zpow_add₀ (by norm_num : (2 : R) ≠ 0)]
          norm_num
        rw [e]
        apply mul_lt_mul_of_pos_right _ hj
        have h : (k : R) < ((2 ^ 24 : ℕ) : R) := by exact_mod_cast hk2
        rw [show ((2 : R) ^ (24 : ℤ)) = ((2 ^ 24 : ℕ) : R) by norm_num]
        exact h
      omega
    · rw [← Int.zpow_le_iff_le_log (by norm_num) hx]
      have e : ((2 : ℕ) : R) ^ (23 + j) = (2 : R) ^ (23 : ℤ) * (2 : R) ^ j := by
        rw [← zpow_add₀ (by norm_num : (2 : R) ≠ 0)]
        norm_num
      rw [e]
      apply mul_le_mul_of_nonneg_right _ (le_of_lt hj)
      have h : ((2 ^ 23 : ℕ) : R) ≤ (k : R) := by exact_mod_cast hk1
      rw [show ((2 : R) ^ (23 : ℤ)) = ((2 ^ 23 : ℕ) : R) by norm_num]
      exact h
  unfold roundF32
  rw [if_pos hx]
  unfold roundF32Pos
  rw [hlog]
  have e : (23 + j - 23 : ℤ) = j := by ring
  rw [e, mul_div_assoc, div_self (ne_of_gt hj), mul_one]
  have : roundNearestEven (k : R) = (k : ℤ) := by
    have h : roundNearestEven (((k : ℤ) : R)) = (k : ℤ) := roundNearestEven_intCast (k : ℤ)
    simpa using h
  rw [this]
  simp

/-- The binade of `k * 2^j + δ` for a 24-bit significand `k` and `0 ≤ δ < 2^j`. -/
theorem log_significand_add {R : Type} [LinearOrderedField R] [FloorRing R] (k : ℕ)
    (hk1 : 2 ^ 23 ≤ k) (hk2 : k < 2 ^ 24) (j : ℤ) (δ : R) (h0 : 0 ≤ δ) (h1 : δ < (2 : R) ^ j) :
    Int.log 2 ((k : R) * (2 : R) ^ j + δ) = 23 + j := by
  have hj : (0 : R) < (2 : R) ^ j := two_zpow_pos j
  have hkpos : (0 : R) < (k : R) := by
    have : 0 < k := lt_of_lt_of_le (by norm_num) hk1
    exact_mod_cast this
  have hx : (0 : R) < (k : R) * (2 : R) ^ j + δ := by
    have := mul_pos hkpos hj
    linarith
  apply le_antisymm
  · have : Int.log 2 ((k : R) * (2 : R) ^ j + δ) < 24 + j := by
      rw [← Int.lt_zpow_iff_log_lt (by norm_num) hx]
      have e : ((2 : ℕ) : R) ^ (24 + j) = (2 : R) ^ (24 : ℤ) * (2 : R) ^ j := by
        rw [← zpow_add₀ (by norm_num : (2 : R) ≠ 0)]
        norm_num
      rw [e]
      have h : ((k + 1 : ℕ) : R) ≤ ((2 ^ 24 : ℕ) : R) := by exact_mod_cast hk2
      have h24 : ((2 : R) ^ (24 : ℤ)) = ((2 ^ 24 : ℕ) : R) := by norm_num
      rw [h24]
      have hmul := mul_le_mul_of_nonneg_right h (le_of_lt hj)
      push_cast at hmul ⊢
      nlinarith
    omega
  · rw [← Int.zpow_le_iff_le_log (by norm_num) hx]
    have e : ((2 : ℕ) : R) ^ (23 + j) = (2 : R) ^ (23 : ℤ) * (2 : R) ^ j := by
      rw [← zpow_add₀ (by norm_num : (2 : R) ≠ 0)]
      norm_num
    rw [e]
    have h : ((2 ^ 23 : ℕ) : R) ≤ (k : R) := by exact_mod_cast hk1
    have h23 : ((2 : R) ^ (23 : ℤ)) = ((2 ^ 23 : ℕ) : R) := by norm_num
    rw [h23]
    have hmul := mul_le_mul_of_nonneg_right h (le_of_lt hj)
    linarith

/-- The scaled significand of `k * 2^j + δ` and its floor. -/
theorem floor_significand_add {R : Type} [LinearOrderedField R] [FloorRing R] (k : ℕ)
    (j : ℤ) (δ : R) (h0 : 0 ≤ δ) (h1 : δ < (2 : R) ^ j) :
    ((k : R) * (2 : R) ^ j + δ) / (2 : R) ^ j = (k : R) + δ / (2 : R) ^ j ∧
    ⌊(k : R) + δ / (2 : R) ^ j⌋ = (k : ℤ) := by
  have hj : (0 : R) < (2 : R) ^ j := two_zpow_pos j
  constructor
  · field_simp
  · rw [Int.floor_eq_iff]
    have hq0 : 0 ≤ δ / (2 : R) ^ j := div_nonneg h0 (le_of_lt hj)
    have hq1 : δ / (2 : R) ^ j < 1 := (div_lt_one hj).mpr h1
    constructor
    · push_cast
      linarith
    · push_cast
      linarith

/-- Conversion to `float` rounds down what lies less than half a unit in the last place
above a `float`. -/
theorem roundF32_round_down {R : Type} [LinearOrderedField R] [FloorRing R] (k : ℕ)
    (hk1 : 2 ^ 23 ≤ k) (hk2 : k < 2 ^ 24) (j : ℤ) (δ : R) (h0 : 0 ≤ δ)
    (h1 : δ < (2 : R) ^ j / 2) :
    roundF32 ((k : R) * (2 : R) ^ j + δ) = (k : R) * (2 : R) ^ j := by
  have hj : (0 : R) < (2 : R) ^ j := two_zpow_pos j
  have h1b : δ < (2 : R) ^ j := by linarith
  have hkpos : (0 : R) < (k : R) := by
    have : 0 < k := lt_of_lt_of_le (by norm_num) hk1
    exact_mod_cast this
  have hx : (0 : R) < (k : R) * (2 : R) ^ j + δ := by
    have := mul_pos hkpos hj
    linarith
  obtain ⟨hq, hfl⟩ := floor_significand_add k j δ h0 h1b
  unfold roundF32
  rw [if_pos hx]
  unfold roundF32Pos
  rw [log_significand_add k hk1 hk2 j δ h0 h1b]
  have e : (23 + j - 23 : ℤ) = j := by ring
  rw [e, hq]
  have hfrac : (k : R) + δ / (2 : R) ^ j - ((⌊(k : R) + δ / (2 : R) ^ j⌋ : ℤ) : R) < 1 / 2 := by
    rw [hfl]
    push_cast
    have : δ / (2 : R) ^ j < 1 / 2 := by
      rw [div_lt_iff₀ hj]
      linarith
    linarith
  have hr : roundNearestEven ((k : R) + δ / (2 : R) ^ j) = (k : ℤ) := by
    unfold roundNearestEven
    rw [if_pos hfrac, hfl]
  rw [hr]
  simp

/-- Conversion to `float` of a tie (exactly half a unit in the last place above a `float`
with even significand) gives that `float`. -/
theorem roundF32_tie_even {R : Type} [LinearOrderedField R] [FloorRing R] (k : ℕ)
    (hk1 : 2 ^ 23 ≤ k) (hk2 : k < 2 ^ 24) (hev : k % 2 = 0) (j : ℤ) :
    roundF32 ((k : R) * (2 : R) ^ j + (2 : R) ^ j / 2) = (k : R) * (2 : R) ^ j := by
  have hj : (0 : R) < (2 : R) ^ j := two_zpow_pos j
  have h0 : (0 : R) ≤ (2 : R) ^ j / 2 := by linarith
  have h1b : (2 : R) ^ j / 2 < (2 : R) ^ j := by linarith
  have hkpos : (0 : R) < (k : R) := by
    have : 0 < k := lt_of_lt_of_le (by norm_num) hk1
    exact_mod_cast this
  have hx : (0 : R) < (k : R) * (2 : R) ^ j + (2 : R) ^ j / 2 := by
    have := mul_pos hkpos hj
    linarith
  obtain ⟨hq, hfl⟩ := floor_significand_add k j ((2 : R) ^ j / 2) h0 h1b
  unfold roundF32
  rw [if_pos hx]
  unfold roundF32Pos
  rw [log_significand_add k hk1 hk2 j _ h0 h1b]
  have e : (23 + j - 23 : ℤ) = j := by ring
  rw [e, hq]
  have hhalf : (2 : R) ^ j / 2 / (2 : R) ^ j = 1 / 2 := by
    field_simp
    ring
  have hfrac : (k : R) + (2 : R) ^ j / 2 / (2 : R) ^ j
      - ((⌊(k : R) + (2 : R) ^ j / 2 / (2 : R) ^ j⌋ : ℤ) : R) = 1 / 2 := by
    rw [hfl, hhalf]
    push_cast
    ring
  have hr : roundNearestEven ((k : R) + (2 : R) ^ j / 2 / (2 : R) ^ j) = (k : ℤ) := by
    unfold roundNearestEven
    rw [hfrac, hfl]
    have hev2 : (k : ℤ) % 2 = 0 := by omega
    simp [hev2]
  rw [hr]
  simp

theorem roundF32_zero {R : Type} [LinearOrderedField R] [FloorRing R] :
    roundF32 (0 : R) = 0 := by
  simp [roundF32]

theorem roundF32_one : roundF32 (1 : ℝ) = 1 := by
  have h := @roundF32_round_down ℝ _ _ (2 ^ 23) (by norm_num) (by norm_num) (-23) 0 (le_refl _)
    (by positivity)
  norm_num at h
  exact h

theorem roundF32_two : roundF32 (2 : ℝ) = 2 := by
  have h := @roundF32_round_down ℝ _ _ (2 ^ 23) (by norm_num) (by norm_num) (-22) 0 (le_refl _)
    (by positivity)
  norm_num at h
  exact h

/-- The `float` sums around `2^25`, where neighbouring `float`s are 4 apart. -/
theorem roundF32_near_2p25 :
    roundF32 (33554432 : ℝ) = 33554432 ∧ roundF32 (33554433 : ℝ) = 33554432 ∧
    roundF32 (33554436 : ℝ) = 33554436 ∧ roundF32 (33554437 : ℝ) = 33554436 := by
  have h0 := @roundF32_round_down ℝ _ _ (2 ^ 23) (by norm_num) (by norm_num) 2 0 (le_refl _)
    (by positivity)
  have h1 := @roundF32_round_down ℝ _ _ (2 ^ 23) (by norm_num) (by norm_num) 2 1 (by norm_num)
    (by norm_num)
  have h4 := @roundF32_round_down ℝ _ _ (2 ^ 23 + 1) (by norm_num) (by norm_num) 2 0
    (le_refl _) (by positivity)
  have h5 := @roundF32_round_down ℝ _ _ (2 ^ 23 + 1) (by norm_num) (by norm_num) 2 1
    (by norm_num) (by norm_num)
  norm_num at h0 h1 h4 h5
  exact ⟨h0, h1, h4, h5⟩

/-- The `float` conversions and sums around `2^24`, where neighbouring `float`s are 2 apart:
`2^24 + 1` is a tie and goes to the even significand. -/
theorem roundF32_near_2p24 :
    roundF32 (16777216 : ℝ) = 16777216 ∧ roundF32 (16777217 : ℝ) = 16777216 ∧
    roundF32 (16777218 : ℝ) = 16777218 := by
  have h0 := @roundF32_round_down ℝ _ _ (2 ^ 23) (by norm_num) (by norm_num) 1 0 (le_refl _)
    (by positivity)
  have h1 := @roundF32_tie_even ℝ _ _ (2 ^ 23) (by norm_num) (by norm_num) (by norm_num) 1
  have h2 := @roundF32_round_down ℝ _ _ (2 ^ 23 + 1) (by norm_num) (by norm_num) 1 0
    (le_refl _) (by positivity)
  norm_num at h0 h1 h2
  exact ⟨h0, h1, h2⟩

/-! ## Discount with the `float` sum -/

/-- The `float` sum `base + rank` does not decrease when the rank grows. -/
theorem floatSum_mono (b : ℝ) (hb : 0 < b) (r1 r2 : Nat) (h : r1 ≤ r2) :
    roundF32 (b + roundF32 (r1 : ℝ)) ≤ roundF32 (b + roundF32 (r2 : ℝ)) := by
  have h0 : (0 : ℝ) ≤ (r1 : ℝ) := Nat.cast_nonneg r1
  have h12 : (r1 : ℝ) ≤ (r2 : ℝ) := by exact_mod_cast h
  have hr := roundF32_mono h0 h12
  have hr1 := roundF32_nonneg h0
  exact roundF32_mono (by linarith) (by linarith)

/-- The `float` sum `base + rank` is at least the base, when the base is a `float`. -/
theorem floatSum_ge_base (b : ℝ) (hb : 0 < b) (hfl : roundF32 b = b) (r : Nat) :
    b ≤ roundF32 (b + roundF32 (r : ℝ)) := by
  have h0 : (0 : ℝ) ≤ (r : ℝ) := Nat.cast_nonneg r
  have hr := roundF32_nonneg h0
  have := roundF32_mono (le_of_lt hb) (show b ≤ b + roundF32 (r : ℝ) by linarith)
  rw [hfl] at this
  exact this

/-- For a `float` base above 1 and a `log` that is positive above 1 the discount with the
`float` sum is a number. -/
theorem discountF32_defined (log : ℝ → ℝ) (hpos : ∀ x, 1 < x → 0 < log x) (b : ℝ)
    (hb : 1 < b) (hfl : roundF32 b = b) (r : Nat) :
    0 < log (roundF32 (b + roundF32 (r : ℝ))) ∧
    discountF32 log r b = some (log b / log (roundF32 (b + roundF32 (r : ℝ)))) := by
  have hs := floatSum_ge_base b (by linarith) hfl r
  have hl : 0 < log (roundF32 (b + roundF32 (r : ℝ))) := hpos _ (by linarith)
  refine ⟨hl, ?_⟩
  simp [discountF32, ne_of_gt hl]

/-- Counterexample to C5: with the `float` sum `base + rank` the discount does not strictly
decrease. At base `2^25` the ranks 0 and 1 both give the sum `2^25`, hence the discount 1;
at base 2 the ranks `2^24` and `2^24 + 1` both give the sum `2^24 + 2`. -/
theorem discountF32_rank_collision :
    discountF32 Real.log 0 (33554432 : ℝ) = some 1 ∧
    discountF32 Real.log 1 (33554432 : ℝ) = some 1 ∧
    discountF32 Real.log 16777216 (2 : ℝ)
      = some (Real.log 2 / Real.log 16777218) ∧
    discountF32 Real.log 16777217 (2 : ℝ)
      = some (Real.log 2 / Real.log 16777218) := by
  obtain ⟨a0, a1, _, _⟩ := roundF32_near_2p25
  obtain ⟨b0, b1, b2⟩ := roundF32_near_2p24
  have hl25 : Real.log 33554432 ≠ 0 := ne_of_gt (Real.log_pos (by norm_num))
  have hl24 : Real.log 16777218 ≠ 0 := ne_of_gt (Real.log_pos (by norm_num))
  have e1 : (33554432 : ℝ) + 1 = 33554433 := by norm_num
  have e2 : (2 : ℝ) + 16777216 = 16777218 := by norm_num
  refine ⟨?_, ?_, ?_, ?_⟩
  · simp [discountF32, roundF32_zero, a0, hl25]
  · simp [discountF32, roundF32_one, e1, a1, hl25]
  · simp [discountF32, b0, e2, b2, hl24]
  · simp [discountF32, b1, e2, b2, hl24]

/-- C5 (amended): for every `float` base above 1 and all ranks `r1 < r2`, the discount
computed with the `float` sum `base + rank` never increases with the rank:
`discount(r1, base) >= discount(r2, base)`; this for every `log` that is non-decreasing
and positive above 1. -/
theorem discountF32_antitone (log : ℝ → ℝ)
    (hmono : ∀ x y, 1 ≤ x → x ≤ y → log x ≤ log y) (hpos : ∀ x, 1 < x → 0 < log x)
    (b : ℝ) (hb : 1 < b) (hfl : roundF32 b = b) (r1 r2 : Nat) (h : r1 < r2) :
    ∃ d1 d2 : ℝ, discountF32 log r1 b = some d1 ∧ discountF32 log r2 b = some d2 ∧
      d1 ≥ d2 := by
  obtain ⟨hl1, hd1⟩ := discountF32_defined log hpos b hb hfl r1
  obtain ⟨_, hd2⟩ := discountF32_defined log hpos b hb hfl r2
  refine ⟨_, _, hd1, hd2, ?_⟩
  have hs1 := floatSum_ge_base b (by linarith) hfl r1
  have hs := floatSum_mono b (by linarith) r1 r2 (le_of_lt h)
  have hlog := hmono _ _ (by linarith) hs
  exact div_le_div_of_nonneg_left (le_of_lt (hpos b hb)) hl1 hlog

/-- Witness of the amended C5: the natural logarithm, base 2, ranks 0 and 1. -/
theorem discountF32_antitone_witness :
    ∃ d1 d2 : ℝ, discountF32 Real.log 0 (2 : ℝ) = some d1 ∧
      discountF32 Real.log 1 (2 : ℝ) = some d2 ∧ d1 ≥ d2 :=
  discountF32_antitone Real.log
    (fun x y hx hxy => Real.log_le_log (by linarith) hxy)
    (fun x hx => Real.log_pos hx) 2 (by norm_num) roundF32_two 0 1 (by decide)

set_option maxRecDepth 100000 in
/-- Counterexample to C10: a group of 17 positions whose scores are all 0, sorted by
`std::sort` of GNU libstdc++. The ranking comes out as
`8, 16, 15, 14, 13, 12, 11, 10, 9, 0, 7, 6, 5, 4, 3, 2, 1`, so positions 1 and 2, with equal
scores, get the ranks 16 and 15: the earlier position has the larger rank. -/
theorem ComputeRanks_gnu_ties :
    scoreAt (List.range 17) (List.replicate 17 (0 : Int)) 1
      = scoreAt (List.range 17) (List.replicate 17 (0 : Int)) 2 ∧
    ∃ ranks : List Nat,
      ComputeRanks gnuSort (List.range 17) (List.replicate 17 (0 : Int)) = some ranks ∧
      ranks = [9, 16, 15, 14, 13, 12, 11, 10, 0, 8, 7, 6, 5, 4, 3, 2, 1] ∧
      ranks[1]? = some 16 ∧ ranks[2]? = some 15 := by
  refine ⟨by decide, _, rfl, by decide, by decide, by decide⟩

end gbdt
